import Mathlib

/-
Verification of the saneterm escape-sequence parser (saneterm/pty.py and
saneterm/color.py), shallowly embedded in Lean 4.

Conventions of the embedding:
* Python strings become `List Char`; string slices `s[a:b]` become
  `pySlice s a b := (s.drop a).take (b - a)`.
* The `PositionedIterator` field `pos` of the source starts at -1 and always
  equals "index of the element last returned by __next__".  We store
  `pos1 := pos + 1` as a `Nat` (so `pos1 = 0` is the initial state); every
  position computation below is annotated with the source expression.
* Exceptions are modelled with `Option` / `Except`: `StopIteration` is
  `none` / `.error .exhausted`, `AssertionError` is `.error .assertFail`.
* Generators are modelled as functions returning the full event list.
* The parser main loop is defined with an explicit fuel parameter so that it
  is structurally recursive and kernel-computable; `2 * length + 2` fuel is
  proved sufficient below.
-/

/-! ## Color model (saneterm/color.py) -/

inductive BasicColor where
  | BLACK | RED | GREEN | YELLOW | BLUE | MAGENTA | CYAN | WHITE
deriving DecidableEq, Repr

/-- BasicColor(n) for `0 <= n < 8`; the source raises `ValueError` outside
that range, every call site below is guarded by a range check, so the
out-of-range result is arbitrary (we return BLACK). -/
def BasicColor.fromValue (n : Nat) : BasicColor :=
  match n with
  | 0 => .BLACK
  | 1 => .RED
  | 2 => .GREEN
  | 3 => .YELLOW
  | 4 => .BLUE
  | 5 => .MAGENTA
  | 6 => .CYAN
  | 7 => .WHITE
  | _ + 8 => .BLACK

inductive ColorType where
  | NUMBERED_8 | NUMBERED_8_BRIGHT | NUMBERED_256 | TRUECOLOR
deriving DecidableEq, Repr

/-- The dynamic `data` argument of `Color.__init__`: a `BasicColor` member,
a Python int, or a tuple of ints (other Python values cannot reach
`Color.__init__` from this code base). -/
inductive ColorData where
  | basic (b : BasicColor)
  | int (n : Int)
  | tuple (l : List Int)
deriving DecidableEq, Repr

structure Color where
  type : ColorType
  data : ColorData
deriving DecidableEq, Repr

/-- `Color.__init__` from color.py: validates `data` against the color type
and raises `TypeError` (modelled as `.error ()`) on validation failure.
Note that for `TRUECOLOR` only the tuple-ness and arity are checked; the
channel values themselves are not range checked by the source. -/
def colorInit (t : ColorType) (data : ColorData) : Except Unit Color :=
  match t with
  | .TRUECOLOR =>
      match data with
      | .tuple l => if l.length = 3 then .ok ⟨t, data⟩ else .error ()
      | _ => .error ()
  | .NUMBERED_8 | .NUMBERED_8_BRIGHT =>
      match data with
      | .basic _ => .ok ⟨t, data⟩
      | _ => .error ()
  | .NUMBERED_256 =>
      match data with
      | .int n => if 0 ≤ n ∧ n < 256 then .ok ⟨t, data⟩ else .error ()
      | _ => .error ()

deriving instance DecidableEq for Except

/-- An RGBA value: Gdk.RGBA with exact rational channels. -/
abbrev RGBA := ℚ × ℚ × ℚ × ℚ

/-- extended_color_val from color.py. -/
def extended_color_val (x : Nat) : ℚ :=
  (if x > 0 then (x * 40 + 55 : ℚ) else 0) / 255

/-- int_triple_to_rgba from color.py. -/
def int_triple_to_rgba (r g b : Int) : RGBA :=
  ((r : ℚ) / 255, (g : ℚ) / 255, (b : ℚ) / 255, 1)

/-- The BASIC_COLOR_NAMES_REGULAR / _BRIGHT tables of color.py resolved
through X11 color names to concrete RGB values (the spec declares the exact
values an implementation parameter; none of the claims depend on them). -/
def basic_color_to_rgba (n : BasicColor) (bright : Bool) : RGBA :=
  let t : Nat × Nat × Nat :=
    if bright then
      match n with
      | .BLACK => (127, 127, 127)  -- gray50
      | .RED => (255, 0, 0)
      | .GREEN => (0, 255, 0)
      | .YELLOW => (255, 255, 0)
      | .BLUE => (100, 149, 237)   -- CornflowerBlue
      | .MAGENTA => (255, 0, 255)
      | .CYAN => (0, 255, 255)
      | .WHITE => (255, 255, 255)
    else
      match n with
      | .BLACK => (0, 0, 0)
      | .RED => (205, 0, 0)        -- red3
      | .GREEN => (0, 205, 0)      -- green3
      | .YELLOW => (205, 205, 0)   -- yellow3
      | .BLUE => (0, 0, 238)       -- blue2
      | .MAGENTA => (205, 0, 205)  -- magenta3
      | .CYAN => (0, 205, 205)     -- cyan3
      | .WHITE => (229, 229, 229)  -- gray90
  ((t.1 : ℚ) / 255, (t.2.1 : ℚ) / 255, (t.2.2 : ℚ) / 255, 1)

/-- Color.to_gdk from color.py.  The catch-all case is unreachable for
colors built by `colorInit` (the source would raise there). -/
def Color.to_gdk (c : Color) : RGBA :=
  match c.type, c.data with
  | .NUMBERED_8, .basic b => basic_color_to_rgba b false
  | .NUMBERED_8_BRIGHT, .basic b => basic_color_to_rgba b true
  | .TRUECOLOR, .tuple [r, g, b] => int_triple_to_rgba r g b
  | .NUMBERED_256, .int n =>
      let m := n.toNat
      if m < 8 then
        basic_color_to_rgba (BasicColor.fromValue m) false
      else if m < 16 then
        basic_color_to_rgba (BasicColor.fromValue (m - 8)) true
      else if m < 232 then
        -- (r, tmp) = divmod(self.data - 16, 36); (g, b) = divmod(tmp, 6)
        let tmp := m - 16
        let r := tmp / 36
        let tmp2 := tmp % 36
        let g := tmp2 / 6
        let b := tmp2 % 6
        (extended_color_val r, extended_color_val g, extended_color_val b, 1)
      else
        -- grayscale in 24 steps: c = (self.data - 232) * (1.0/24)
        let cc : ℚ := (m - 232 : Nat) * (1 / 24)
        (cc, cc, cc, 1)
  | _, _ => (0, 0, 0, 0)

/-! ## Style-change vocabulary (saneterm/pty.py) -/

inductive TextStyleChange where
  | RESET | ITALIC | STRIKETHROUGH | WEIGHT | UNDERLINE | CONCEALED
  | FOREGROUND_COLOR | BACKGROUND_COLOR
deriving DecidableEq, Repr

inductive PangoWeight where
  | NORMAL | BOLD | THIN
deriving DecidableEq, Repr

inductive PangoUnderline where
  | NONE | SINGLE | DOUBLE
deriving DecidableEq, Repr

/-- The dynamic payload associated with a TextStyleChange. -/
inductive StyleVal where
  | vNone
  | vBool (b : Bool)
  | vWeight (w : PangoWeight)
  | vUnderline (u : PangoUnderline)
  | vColor (c : Option Color)
deriving DecidableEq, Repr

/-- A (TextStyleChange, payload) pair as appended to special_evs. -/
abbrev SEv := TextStyleChange × StyleVal

/-! ## CSI byte classes (ECMA-48 section 5.4) -/

def csi_parameter_byte (c : Char) : Bool :=
  0x30 ≤ c.toNat ∧ c.toNat ≤ 0x3f

def csi_intermediate_byte (c : Char) : Bool :=
  0x20 ≤ c.toNat ∧ c.toNat ≤ 0x2f

def csi_final_byte (c : Char) : Bool :=
  0x40 ≤ c.toNat ∧ c.toNat ≤ 0x7e

/-! ## SGR interpreter (parse_extended_color / parse_sgr_sequence) -/

/-- Python `int()` restricted to the character set reachable here: a
non-empty all-digit token parses to its value, anything else raises
`ValueError` (modelled as `none`).  Sign/whitespace/underscore forms that
`int()` would also accept cannot occur among CSI parameter bytes. -/
def parseIntTok (s : List Char) : Option Nat :=
  if s ≠ [] ∧ s.all Char.isDigit then
    some (s.foldl (fun a c => a * 10 + (c.toNat - 0x30)) 0)
  else
    none

/-- Membership in the SgrParam IntEnum: `SgrParam(n)` succeeds exactly for
the declared values 0..55, 60..65, 90..97 and 100..107. -/
def isSgrParam (n : Nat) : Bool :=
  n ≤ 55 ∨ (60 ≤ n ∧ n ≤ 65) ∨ (90 ≤ n ∧ n ≤ 97) ∨ (100 ≤ n ∧ n ≤ 107)

/-- re.split(r'[:;]', params): split on each ':' or ';', keeping empty
fields (so the empty string yields one empty field). -/
def splitParams : List Char → List (List Char)
  | [] => [[]]
  | c :: cs =>
      if c = ':' ∨ c = ';' then
        [] :: splitParams cs
      else
        match splitParams cs with
        | t :: ts => (c :: t) :: ts
        | [] => [[c]]

/-- parse_extended_color from pty.py.  The source first drains the shared
parameter iterator (`args = list(iterator)`), so this function receives the
whole remainder of the parameter list.  `.ok none` is the color reset,
`.error ()` is the AssertionError that parse_sgr_sequence swallows. -/
def parse_extended_color (args : List (List Char)) : Except Unit (Option Color) :=
  match args with
  | [] => .error ()                     -- IndexError on args[0]
  | a0 :: rest =>
      if a0 = ['5'] then
        -- 256 color: assert len(args) == 2
        match rest with
        | [b] =>
            match parseIntTok b with
            | none => .error ()         -- ValueError from int()
            | some n =>
                match colorInit .NUMBERED_256 (.int n) with
                | .ok c => .ok (some c)
                | .error _ => .error () -- TypeError from Color.__init__
        | _ => .error ()
      else if a0 = ['2'] then
        -- truecolor
        let channels? : Except Unit (List (List Char)) :=
          if args.length = 4 then .ok (rest.take 3)            -- args[1:4]
          else if args.length ≥ 5 then .ok ((rest.drop 1).take 3)  -- args[2:5]
          else .error ()                -- too few arguments
        match channels? with
        | .error _ => .error ()
        | .ok channels =>
            match channels.mapM parseIntTok with
            | none => .error ()         -- ValueError from int()
            | some ns =>
                match colorInit .TRUECOLOR (.tuple (ns.map Int.ofNat)) with
                | .ok c => .ok (some c)
                | .error _ => .error ()
      else if a0 = ['0'] then
        .ok none                        -- implementation defined: color reset
      else
        .error ()                       -- unsupported extended color

/-- The body of the `for p in params_it` loop of parse_sgr_sequence.
`single` is `single_param_with_args` (a ':' occurred in the raw parameter
string, so we break after the first iteration).  The 38/48 branches hand
the rest of the token list to parse_extended_color, which drains it, so the
loop always ends there. -/
def sgrLoop (single : Bool) : List (List Char) → List SEv
  | [] => []
  | p :: rest =>
      let contin : List SEv → List SEv :=
        fun evs => evs ++ (if single then [] else sgrLoop single rest)
      let sgr? : Option Nat :=
        if p = [] then some 0          -- empty implies 0 / default
        else
          match parseIntTok p with
          | some n => if isSgrParam n then some n else none
          | none => none               -- skip invalid params
      match sgr? with
      | none => contin []
      | some n =>
        if n = 0 then contin [(.RESET, .vNone)]
        else if n = 1 then contin [(.WEIGHT, .vWeight .BOLD)]
        else if n = 2 then contin [(.WEIGHT, .vWeight .THIN)]
        else if n = 3 then contin [(.ITALIC, .vBool true)]
        else if n = 4 then contin [(.UNDERLINE, .vUnderline .SINGLE)]
        else if n = 8 then contin [(.CONCEALED, .vBool true)]
        else if n = 9 then contin [(.STRIKETHROUGH, .vBool true)]
        else if n = 21 then contin [(.UNDERLINE, .vUnderline .DOUBLE)]
        else if n = 22 then contin [(.WEIGHT, .vWeight .NORMAL)]
        else if n = 23 then contin [(.ITALIC, .vBool false)]
        else if n = 24 then contin [(.UNDERLINE, .vUnderline .NONE)]
        else if n = 28 then contin [(.CONCEALED, .vBool false)]
        else if n = 29 then contin [(.STRIKETHROUGH, .vBool false)]
        else if 30 ≤ n ∧ n ≤ 37 then
          contin [(.FOREGROUND_COLOR,
            .vColor (some ⟨.NUMBERED_8, .basic (BasicColor.fromValue (n - 30))⟩))]
        else if n = 38 then
          -- SELECT_FOREGROUND: parse_extended_color drains params_it
          match parse_extended_color rest with
          | .ok c => [(.FOREGROUND_COLOR, .vColor c)]
          | .error _ => []             -- AssertionError swallowed
        else if n = 39 then contin [(.FOREGROUND_COLOR, .vColor none)]
        else if 40 ≤ n ∧ n ≤ 47 then
          contin [(.BACKGROUND_COLOR,
            .vColor (some ⟨.NUMBERED_8, .basic (BasicColor.fromValue (n - 40))⟩))]
        else if n = 48 then
          -- SELECT_BACKGROUND: parse_extended_color drains params_it
          match parse_extended_color rest with
          | .ok c => [(.BACKGROUND_COLOR, .vColor c)]
          | .error _ => []             -- AssertionError swallowed
        else if n = 49 then contin [(.BACKGROUND_COLOR, .vColor none)]
        else if 90 ≤ n ∧ n ≤ 97 then
          contin [(.FOREGROUND_COLOR,
            .vColor (some ⟨.NUMBERED_8_BRIGHT, .basic (BasicColor.fromValue (n - 90))⟩))]
        else if 107 ≤ n ∧ n ≤ 90 then
          -- source: sgr_type >= BRIGHT_WHITE_BACKGROUND (107) and
          --         sgr_type <= BRIGHT_BLACK_FOREGROUND (90)
          -- (unsatisfiable, kept verbatim from the source)
          contin [(.BACKGROUND_COLOR,
            .vColor (some ⟨.NUMBERED_8_BRIGHT, .basic (BasicColor.fromValue (n - 100))⟩))]
        else contin []                 -- unsupported SgrParam: no event

/-- parse_sgr_sequence from pty.py (the special_evs it appends, without the
EventType.TEXT_STYLE wrapper). -/
def parse_sgr_sequence (params : List Char) : List SEv :=
  sgrLoop (params.contains ':') (splitParams params)

/-! ## PositionedIterator (pty.py) -/

/-- PositionedIterator with the index shift described at the top of the
file: `pos1` here is the source's `pos + 1`, so `pos1 = 0` is the fresh
state (source `pos = -1`) and `wrapped[pos1 - 1]` is the element last
returned by `__next__`.  `waypoints` stores the pushed values under the
same shift. -/
structure PositionedIterator where
  wrapped : List Char
  pos1 : Nat
  waypoints : List Nat
deriving DecidableEq, Repr

/-- `__next__`: advance and return the element, or raise StopIteration
(`none`; the source restores `pos` before raising, and the caller's
visible state is unchanged, which `none` models). -/
def nextc (it : PositionedIterator) : Option (Char × PositionedIterator) :=
  if h : it.pos1 < it.wrapped.length then
    some (it.wrapped.get ⟨it.pos1, h⟩, { it with pos1 := it.pos1 + 1 })
  else
    none

/-- `waypoint()`: push `max(pos - 1, -1)`, which under the `pos1` shift is
`pos1 - 1` with truncated subtraction. -/
def waypoint (it : PositionedIterator) : PositionedIterator :=
  { it with waypoints := (it.pos1 - 1) :: it.waypoints }

/-- `backtrack()`: pop the last waypoint into `pos`.  The source raises
IndexError on an empty stack; `parse` below only calls it right after
`waypoint()`, so the empty case (returned unchanged) is unreachable. -/
def backtrack (it : PositionedIterator) : PositionedIterator :=
  match it.waypoints with
  | [] => it
  | p :: rest => { it with pos1 := p, waypoints := rest }

/-- `empty()`: `pos + 1 == len(wrapped)`. -/
def emptyIt (it : PositionedIterator) : Bool :=
  it.pos1 = it.wrapped.length

/-- Fuel-indexed body of takewhile_greedy: read one element; while the
predicate holds keep reading; on the terminating element rewind `pos` by
one; running out of elements raises StopIteration (`none`).  The returned
list is the slice `wrapped[start:end]` of the source, rebuilt element by
element. -/
def twgAux (f : Char → Bool) : Nat → PositionedIterator → Option (List Char × PositionedIterator)
  | 0, _ => none
  | fuel + 1, it =>
      match nextc it with
      | none => none
      | some (x, it1) =>
          if f x then
            match twgAux f fuel it1 with
            | none => none
            | some (cs, it2) => some (x :: cs, it2)
          else
            -- self.pos -= 1: the terminator stays the next element
            some ([], { it1 with pos1 := it1.pos1 - 1 })

/-- takewhile_greedy from pty.py.  `wrapped.length + 1` fuel covers every
possible run (each recursive step consumes one element). -/
def takewhile_greedy (f : Char → Bool) (it : PositionedIterator) :
    Option (List Char × PositionedIterator) :=
  twgAux f (it.wrapped.length + 1) it

/-! ## Escape-sequence scanner and stream parser (pty.py) -/

/-- The two exception kinds that can escape parse_csi_sequence into the
main loop of Parser.parse. -/
inductive PErr where
  | exhausted   -- StopIteration
  | assertFail  -- AssertionError
deriving DecidableEq, Repr

/-- parse_csi_sequence from pty.py: parameter bytes, intermediate bytes,
one final byte; assert the final-byte class; dispatch final byte 'm' to
the SGR interpreter, silently drop every other (recognized) sequence. -/
def parse_csi_sequence (it : PositionedIterator) :
    Except PErr (List SEv × PositionedIterator) :=
  match takewhile_greedy csi_parameter_byte it with
  | none => .error .exhausted
  | some (params, it1) =>
      match takewhile_greedy csi_intermediate_byte it1 with
      | none => .error .exhausted
      | some (_inters, it2) =>
          match nextc it2 with
          | none => .error .exhausted
          | some (finalb, it3) =>
              if csi_final_byte finalb then
                if finalb = 'm' then
                  .ok (parse_sgr_sequence params, it3)
                else
                  .ok ([], it3)
              else
                .error .assertFail

/-- Positional events as produced by the main loop: a TEXT event is
recorded as the pair of source indices (start, flush_until) of the slice
`wrapped[start:flush_until]` the source yields. -/
inductive PEvent where
  | textR (s e : Nat)
  | bell
  | style (c : TextStyleChange) (v : StyleVal)
deriving DecidableEq, Repr

/-- Result of the main parse loop: the events of the call, the leftover
saved for the next call, and (ghost instrumentation, dropped by
`Parser.parse`) the index ranges `[a, b)` of every recognized CSI escape
sequence (its ESC through its final byte). -/
structure LoopOut where
  evs : List PEvent
  leftover : List Char
  csi : List (Nat × Nat)
deriving DecidableEq, Repr

/-- One iteration of the `for code in it` loop of Parser.parse, with the
continuation `recurse` standing for the remaining iterations.
`start` and `ig` are the loop variables `start` and `ignore_esc`.
The two StopIteration branches return directly: they set `self.__leftover`,
after which the iterator is exhausted, so the remaining loop emits nothing
(the flush of this iteration is included here). -/
def parseStep (it : PositionedIterator) (start : Nat) (ig : Bool)
    (recurse : PositionedIterator → Nat → Bool → LoopOut) : LoopOut :=
  match nextc it with
  | none => ⟨[], [], []⟩  -- loop ends; no leftover was set
  | some (code, it1) =>
      -- branch outcome: flush_until, special_evs, iterator, ignore_esc,
      -- recognized-CSI range of this iteration
      let out : Option (Option Nat × List PEvent × PositionedIterator × Bool × List (Nat × Nat)) :=
        if code = '\x07' then
          -- BEL: flush_until = it.pos; emit EventType.BELL
          some (some (it1.pos1 - 1), [.bell], it1, ig, [])
        else if code = '\x1b' then
          if ig then
            -- jump back landed here: treat ESC as an ordinary character
            some (none, [], it1, false, [])
          else
            -- flush_until = it.pos (the ESC index); it.waypoint()
            let escpos := it1.pos1 - 1
            let it2 := waypoint it1
            match nextc it2 with
            | none => none  -- StopIteration on it.next(): leftover branch
            | some (c2, it3) =>
                if c2 = '[' then
                  match parse_csi_sequence it3 with
                  | .ok (sevs, it4) =>
                      some (some escpos, sevs.map (fun p => .style p.1 p.2),
                            it4, false, [(escpos, it4.pos1)])
                  | .error .exhausted => none  -- leftover branch
                  | .error .assertFail =>
                      -- ignore_esc = True; it.backtrack()
                      some (some escpos, [], backtrack it3, true, [])
                else
                  -- unrecognized escape family: ignore_esc = True; backtrack
                  some (some escpos, [], backtrack it3, true, [])
        else
          some (none, [], it1, ig, [])
      match out with
      | none =>
          -- StopIteration inside the escape attempt:
          -- self.__leftover = it.wrapped[flush_until:], flush_until = ESC pos
          let escpos := it1.pos1 - 1
          ⟨(if escpos > start then [.textR start escpos] else []),
           it.wrapped.drop escpos, []⟩
      | some (fu0, sp, itN, igN, csiN) =>
          -- at the end of input, flush if we are not already
          let fu : Option Nat :=
            match fu0 with
            | some f => some f
            | none => if emptyIt itN then some itN.pos1 else none
          let flushEvs : List PEvent :=
            match fu with
            | some f => if f > start then [.textR start f] else []
            | none => []
          let start2 : Nat :=
            match fu with
            | some _ => itN.pos1  -- start = it.pos + 1
            | none => start
          let rest := recurse itN start2 igN
          ⟨flushEvs ++ sp ++ rest.evs, rest.leftover, csiN ++ rest.csi⟩

/-- The `for code in it` loop of Parser.parse, one `parseStep` per unit of
fuel.  Exhausted fuel returns the same value as a finished loop; the fuel
used by `parseRaw` is proved sufficient below, so this case is never the
observed result. -/
def parseLoop : Nat → PositionedIterator → Nat → Bool → LoopOut
  | 0, _, _, _ => ⟨[], [], []⟩
  | fuel + 1, it, start, ig => parseStep it start ig (parseLoop fuel)

/-- Run the main loop of Parser.parse on the full logical input
`w = leftover + input`, from a fresh iterator, `start = 0`,
`ignore_esc = False`. -/
def parseRaw (w : List Char) : LoopOut :=
  parseLoop (2 * w.length + 2) ⟨w, 0, []⟩ 0 false

/-- Python slice `w[a:b]`. -/
def pySlice (w : List Char) (a b : Nat) : List Char :=
  (w.drop a).take (b - a)

/-- The events Parser.parse yields to its caller. -/
inductive Event where
  | text (s : List Char)
  | bell
  | styleChange (c : TextStyleChange) (v : StyleVal)
deriving DecidableEq, Repr

/-- Materialize a positional event of the loop into the event the source
yields: a TEXT payload is the slice `it.wrapped[start:flush_until]`. -/
def eraseEv (w : List Char) : PEvent → Event
  | .textR s e => .text (pySlice w s e)
  | .bell => .bell
  | .style c v => .styleChange c v

/-- Parser.parse from pty.py.  The parser state is the `__leftover`
string; a call concatenates it with the chunk, resets it, runs the loop,
and returns the yielded events together with the new leftover. -/
def Parser.parse (leftover input : List Char) : List Event × List Char :=
  let w := leftover ++ input
  let out := parseRaw w
  (out.evs.map (eraseEv w), out.leftover)

/-- Feed a sequence of chunks to one parser, one Parser.parse call per
chunk, threading the leftover; collect all events in order and the final
leftover. -/
def runChunks (leftover : List Char) : List (List Char) → List Event × List Char
  | [] => ([], leftover)
  | c :: cs =>
      let r := Parser.parse leftover c
      let rest := runChunks r.2 cs
      (r.1 ++ rest.1, rest.2)

/-- Merge every run of adjacent TEXT events into one TEXT event. -/
def coalesce : List Event → List Event
  | [] => []
  | .text s :: rest =>
      match coalesce rest with
      | .text t :: r2 => .text (s ++ t) :: r2
      | r2 => .text s :: r2
  | e :: rest => e :: coalesce rest

/-- Concatenation of all TEXT payloads of an event list. -/
def concatTexts : List Event → List Char
  | [] => []
  | .text s :: rest => s ++ concatTexts rest
  | _ :: rest => concatTexts rest

/-- An unfinished escape sequence: ESC alone, or ESC '[' followed by
parameter bytes and then intermediate bytes with the final byte still
missing.  These are exactly the strings on which the escape-sequence
scanner runs out of input. -/
def incompleteEsc (v : List Char) : Prop :=
  v = ['\x1b'] ∨
  ∃ ps is_ : List Char,
    v = '\x1b' :: '[' :: (ps ++ is_) ∧
    ps.all csi_parameter_byte ∧ is_.all csi_intermediate_byte

/-! ## Proof-side descriptions of the loop (no new behavior: everything
below is proved equal to the definitions above) -/

/-- The TEXT event of one flush: `wrapped[start:flush_until]` is emitted
iff `flush_until > start`. -/
def flushEvs (s e : Nat) : List PEvent :=
  if e > s then [PEvent.textR s e] else []

/-- Description of a single iteration of the parse loop: either the call
ends (loop exhausted, or leftover saved), or the loop continues at
position `p2` with text start `s2`, ignore flag `ig2`, and `pushed`
telling whether this iteration left an extra waypoint on the stack. -/
inductive StepOut where
  | cont (evs : List PEvent) (csi : List (Nat × Nat)) (p2 s2 : Nat) (ig2 : Bool) (pushed : Bool)
  | exit (evs : List PEvent) (leftover : List Char)
deriving DecidableEq, Repr

/-- One parse-loop iteration at position `p` of `w`, described as a pure
function of positions (proved equivalent to `parseStep` below). -/
def stepRes (w : List Char) (p s : Nat) (ig : Bool) : StepOut :=
  if h : p < w.length then
    let code := w.get ⟨p, h⟩
    if code = '\x07' then
      .cont (flushEvs s p ++ [.bell]) [] (p + 1) (p + 1) ig false
    else if code = '\x1b' then
      if ig then
        -- ESC treated as an ordinary character, flag cleared
        if p + 1 = w.length then
          .cont (flushEvs s (p + 1)) [] (p + 1) (p + 1) false false
        else
          .cont [] [] (p + 1) s false false
      else if hp1 : p + 1 < w.length then
        if w.get ⟨p + 1, hp1⟩ = '[' then
          let rem := w.drop (p + 2)
          if rem.all csi_parameter_byte then
            .exit (flushEvs s p) (w.drop p)
          else if ((rem.dropWhile csi_parameter_byte).all csi_intermediate_byte) then
            .exit (flushEvs s p) (w.drop p)
          else
            let ps := rem.takeWhile csi_parameter_byte
            let rem2 := rem.dropWhile csi_parameter_byte
            let is2 := rem2.takeWhile csi_intermediate_byte
            let rem3 := rem2.dropWhile csi_intermediate_byte
            let q := p + 2 + ps.length + is2.length + 1
            match rem3 with
            | [] => .exit [] []   -- unreachable: rem3 nonempty here
            | fin :: _ =>
                if csi_final_byte fin then
                  .cont (flushEvs s p ++
                          (if fin = 'm' then parse_sgr_sequence ps else []).map
                            (fun x => PEvent.style x.1 x.2))
                        [(p, q)] q q false true
                else
                  .cont (flushEvs s p) [] p p true false
        else
          -- unrecognized escape family: backtrack, ignore once
          .cont (flushEvs s p) [] p p true false
      else
        -- StopIteration on it.next() right after the ESC
        .exit (flushEvs s p) (w.drop p)
    else
      -- ordinary character
      if p + 1 = w.length then
        .cont (flushEvs s (p + 1)) [] (p + 1) (p + 1) ig false
      else
        .cont [] [] (p + 1) s ig false
  else
    .exit [] []

/-- Termination measure of the parse loop at position `p` with ignore flag
`ig`: strictly decreases along `StepOut.cont`. -/
def mWeight (w : List Char) (p : Nat) (ig : Bool) : Nat :=
  2 * (w.length - p) + (if ig then 1 else 2)

/-- The parse loop with canonical (sufficient) fuel, from an arbitrary
iterator state. -/
def runFrom (it : PositionedIterator) (s : Nat) (ig : Bool) : LoopOut :=
  parseLoop (2 * it.wrapped.length + 2) it s ig


/-- Shift a positional event by `k` (used to relate runs on `u ++ v` with
runs on `v`). -/
def shiftEv (k : Nat) : PEvent → PEvent
  | .textR s e => .textR (k + s) (k + e)
  | .bell => .bell
  | .style c v => .style c v

/-- Shift a step description by `k`. -/
def shiftStep (k : Nat) : StepOut → StepOut
  | .cont evs csi p2 s2 ig2 pushed =>
      .cont (evs.map (shiftEv k)) (csi.map (fun ab => (k + ab.1, k + ab.2)))
        (k + p2) (k + s2) ig2 pushed
  | .exit evs lo => .exit (evs.map (shiftEv k)) lo

/-- The erased form of one flush: the TEXT event carrying
`wrapped[a:b]` if the slice is non-empty, nothing otherwise. -/
def txt (w : List Char) (a b : Nat) : List Event :=
  if a < b then [Event.text (pySlice w a b)] else []


/-! ## Theorems -/

/-- C3 (code bug): SGR parameters 40..47 and 49 behave as the spec says,
but the bright-background branch of parse_sgr_sequence compares
`sgr_type >= BRIGHT_WHITE_BACKGROUND (107) and sgr_type <=
BRIGHT_BLACK_FOREGROUND (90)`, which is unsatisfiable, so the SGR
parameters 100..107 produce no StyleChange event at all, contradicting the
claim (and the source's own comment that the bright color sequences are
supported). -/
theorem C3_background_sgr :
    parse_sgr_sequence ['4', '0'] =
      [(.BACKGROUND_COLOR, .vColor (some ⟨.NUMBERED_8, .basic .BLACK⟩))] ∧
    parse_sgr_sequence ['4', '1'] =
      [(.BACKGROUND_COLOR, .vColor (some ⟨.NUMBERED_8, .basic .RED⟩))] ∧
    parse_sgr_sequence ['4', '2'] =
      [(.BACKGROUND_COLOR, .vColor (some ⟨.NUMBERED_8, .basic .GREEN⟩))] ∧
    parse_sgr_sequence ['4', '3'] =
      [(.BACKGROUND_COLOR, .vColor (some ⟨.NUMBERED_8, .basic .YELLOW⟩))] ∧
    parse_sgr_sequence ['4', '4'] =
      [(.BACKGROUND_COLOR, .vColor (some ⟨.NUMBERED_8, .basic .BLUE⟩))] ∧
    parse_sgr_sequence ['4', '5'] =
      [(.BACKGROUND_COLOR, .vColor (some ⟨.NUMBERED_8, .basic .MAGENTA⟩))] ∧
    parse_sgr_sequence ['4', '6'] =
      [(.BACKGROUND_COLOR, .vColor (some ⟨.NUMBERED_8, .basic .CYAN⟩))] ∧
    parse_sgr_sequence ['4', '7'] =
      [(.BACKGROUND_COLOR, .vColor (some ⟨.NUMBERED_8, .basic .WHITE⟩))] ∧
    parse_sgr_sequence ['4', '9'] = [(.BACKGROUND_COLOR, .vColor none)] ∧
    parse_sgr_sequence ['1', '0', '0'] = [] ∧
    parse_sgr_sequence ['1', '0', '1'] = [] ∧
    parse_sgr_sequence ['1', '0', '2'] = [] ∧
    parse_sgr_sequence ['1', '0', '3'] = [] ∧
    parse_sgr_sequence ['1', '0', '4'] = [] ∧
    parse_sgr_sequence ['1', '0', '5'] = [] ∧
    parse_sgr_sequence ['1', '0', '6'] = [] ∧
    parse_sgr_sequence ['1', '0', '7'] = [] ∧
    (Parser.parse [] ['\x1b', '[', '1', '0', '0', 'm']).1 = [] := by
  decide

/-- C4 counterexample: after the failed extended-color group `38;6` the
trailing parameter `31` is not processed (the whole SGR parameter list
yields no event), although `31` alone yields a foreground change; the
claim says every parameter following the failed group is still processed. -/
theorem C4_counterexample :
    parse_sgr_sequence ['3', '8', ';', '6', ';', '3', '1'] = [] ∧
    parse_sgr_sequence ['3', '1'] =
      [(.FOREGROUND_COLOR, .vColor (some ⟨.NUMBERED_8, .basic .RED⟩))] := by
  decide

/-- C4 (amended): a failed extended-color attempt produces no StyleChange
event for its axis, and it consumes the entire remainder of the parameter
list (`args = list(iterator)` in the source), so no parameter after the
introducer is processed either: from the introducer on, the parameter list
contributes no event at all. -/
theorem C4_extended_color_failure :
    ∀ (single : Bool) (rest : List (List Char)),
      parse_extended_color rest = .error () →
      sgrLoop single (['3', '8'] :: rest) = [] ∧
      sgrLoop single (['4', '8'] :: rest) = [] := by
  intro single rest h
  constructor <;> simp [sgrLoop, parseIntTok, isSgrParam, h]

/-- Witness for C4_extended_color_failure at the concrete failed group
`38;6;31` (unsupported leading value 6). -/
theorem C4_extended_color_failure_witness :
    parse_extended_color [['6'], ['3', '1']] = .error () ∧
    sgrLoop false (['3', '8'] :: [['6'], ['3', '1']]) = [] := by
  refine ⟨by decide, ?_⟩
  exact (C4_extended_color_failure false [['6'], ['3', '1']] (by decide)).1

/-- C7 counterexample: a TRUECOLOR tuple with a channel value outside
0..255 is accepted by Color.__init__ (only tuple-ness and arity are
checked), refuting the claim that such a construction fails. -/
theorem C7_counterexample :
    colorInit .TRUECOLOR (.tuple [256, 0, 0]) =
      .ok ⟨.TRUECOLOR, .tuple [256, 0, 0]⟩ := by
  decide

/-- C7 (amended): constructing Palette256 with an index outside 0..255
fails at construction time, and constructing TrueColor with data that is
not a tuple or whose arity is not 3 fails at construction time; TrueColor
channel values are not range-checked, any 3-tuple of integers is accepted
at construction. -/
theorem C7_color_construction :
    (∀ n : Int, n < 0 ∨ 256 ≤ n → colorInit .NUMBERED_256 (.int n) = .error ()) ∧
    (∀ l : List Int, l.length ≠ 3 → colorInit .TRUECOLOR (.tuple l) = .error ()) ∧
    (∀ d : ColorData, (∀ l, d ≠ .tuple l) → colorInit .TRUECOLOR d = .error ()) ∧
    (∀ l : List Int, l.length = 3 →
      colorInit .TRUECOLOR (.tuple l) = .ok ⟨.TRUECOLOR, .tuple l⟩) := by
  refine ⟨?_, ?_, ?_, ?_⟩
  · intro n h
    simp only [colorInit, ite_eq_right_iff]
    intro hc
    omega
  · intro l h
    simp [colorInit, h]
  · intro d h
    cases d with
    | basic b => simp [colorInit]
    | int n => simp [colorInit]
    | tuple l => exact absurd rfl (h l)
  · intro l h
    simp [colorInit, h]

/-- Witness for C7_color_construction at concrete inputs: index 300 is
rejected, a 2-tuple is rejected, a BasicColor datum is rejected, and the
out-of-range 3-tuple (999, 0, 0) is accepted. -/
theorem C7_color_construction_witness :
    colorInit .NUMBERED_256 (.int 300) = .error () ∧
    colorInit .TRUECOLOR (.tuple [1, 2]) = .error () ∧
    colorInit .TRUECOLOR (.basic .RED) = .error () ∧
    colorInit .TRUECOLOR (.tuple [999, 0, 0]) = .ok ⟨.TRUECOLOR, .tuple [999, 0, 0]⟩ := by
  refine ⟨?_, ?_, ?_, ?_⟩
  · exact C7_color_construction.1 300 (by decide)
  · exact C7_color_construction.2.1 [1, 2] (by decide)
  · exact C7_color_construction.2.2.1 (.basic .RED) (fun l h => ColorData.noConfusion h)
  · exact C7_color_construction.2.2.2 [999, 0, 0] (by decide)


/-- C5: the 256-palette to RGB conversion follows the claimed formula: for
16 <= n < 232, with t = n-16, r = t/36, g = (t mod 36)/6, b = t mod 6
(integer division), each channel is 0 when its axis value is 0 and
(axis*40+55)/255 otherwise; for 232 <= n <= 255 all three channels are
(n-232)/24; in particular palette entries 16, 231, 232, 255 map to
(0,0,0), (1,1,1), (0,0,0) and (23/24, 23/24, 23/24). -/
theorem C5_palette256_to_rgb :
    (∀ n : Nat, 16 ≤ n → n < 232 →
      Color.to_gdk ⟨.NUMBERED_256, .int n⟩ =
        ((if (n - 16) / 36 = 0 then (0 : ℚ) else (((n - 16) / 36 : Nat) * 40 + 55 : ℚ) / 255),
         (if ((n - 16) % 36) / 6 = 0 then (0 : ℚ) else ((((n - 16) % 36) / 6 : Nat) * 40 + 55 : ℚ) / 255),
         (if (n - 16) % 6 = 0 then (0 : ℚ) else (((n - 16) % 6 : Nat) * 40 + 55 : ℚ) / 255),
         1)) ∧
    (∀ n : Nat, 232 ≤ n → n ≤ 255 →
      Color.to_gdk ⟨.NUMBERED_256, .int n⟩ =
        (((n : ℚ) - 232) / 24, ((n : ℚ) - 232) / 24, ((n : ℚ) - 232) / 24, 1)) ∧
    Color.to_gdk ⟨.NUMBERED_256, .int 16⟩ = (0, 0, 0, 1) ∧
    Color.to_gdk ⟨.NUMBERED_256, .int 231⟩ = (1, 1, 1, 1) ∧
    Color.to_gdk ⟨.NUMBERED_256, .int 232⟩ = (0, 0, 0, 1) ∧
    Color.to_gdk ⟨.NUMBERED_256, .int 255⟩ = (23 / 24, 23 / 24, 23 / 24, 1) := by
  have chan : ∀ x : Nat, extended_color_val x =
      if x = 0 then (0 : ℚ) else ((x : ℚ) * 40 + 55) / 255 := by
    intro x
    unfold extended_color_val
    rcases Nat.eq_zero_or_pos x with h | h
    · simp [h]
    · rw [if_pos h, if_neg (by omega)]
  refine ⟨?_, ?_, ?_, ?_, ?_, ?_⟩
  · intro n h16 h232
    have hm : ((n : Int)).toNat = n := Int.toNat_natCast n
    have c1 : ¬ n < 8 := by omega
    have c2 : ¬ n < 16 := by omega
    have hmod : (n - 16) % 36 % 6 = (n - 16) % 6 :=
      Nat.mod_mod_of_dvd _ (by norm_num)
    simp only [Color.to_gdk, hm, chan, hmod]
    rw [if_neg c1, if_neg c2, if_pos h232]
  · intro n h232 h255
    have hm : ((n : Int)).toNat = n := Int.toNat_natCast n
    have c1 : ¬ n < 8 := by omega
    have c2 : ¬ n < 16 := by omega
    have c3 : ¬ n < 232 := by omega
    simp only [Color.to_gdk, hm]
    rw [if_neg c1, if_neg c2, if_neg c3]
    have hcast : ((n - 232 : Nat) : ℚ) = (n : ℚ) - 232 := by
      push_cast [h232]
      ring
    rw [hcast]
    ring_nf
  · simp [Color.to_gdk, extended_color_val]
  · simp [Color.to_gdk, extended_color_val]
    try norm_num
  · simp [Color.to_gdk, extended_color_val]
  · simp [Color.to_gdk, extended_color_val]
    try norm_num

/-- Witness for C5_palette256_to_rgb: the cube entry 196 (red) and the
grayscale entry 240. -/
theorem C5_palette256_to_rgb_witness :
    (16 ≤ 196 ∧ 196 < 232 ∧
      Color.to_gdk ⟨.NUMBERED_256, .int 196⟩ =
        ((if (196 - 16) / 36 = 0 then (0 : ℚ) else ((((196 : Nat) - 16) / 36 : Nat) * 40 + 55 : ℚ) / 255),
         (if ((196 - 16) % 36) / 6 = 0 then (0 : ℚ) else (((((196 : Nat) - 16) % 36) / 6 : Nat) * 40 + 55 : ℚ) / 255),
         (if (196 - 16) % 6 = 0 then (0 : ℚ) else ((((196 : Nat) - 16) % 6 : Nat) * 40 + 55 : ℚ) / 255),
         1)) ∧
    (232 ≤ 240 ∧ 240 ≤ 255 ∧
      Color.to_gdk ⟨.NUMBERED_256, .int 240⟩ =
        (((240 : ℚ) - 232) / 24, ((240 : ℚ) - 232) / 24, ((240 : ℚ) - 232) / 24, 1)) := by
  exact ⟨⟨by norm_num, by norm_num, C5_palette256_to_rgb.1 196 (by norm_num) (by norm_num)⟩,
         ⟨by norm_num, by norm_num, C5_palette256_to_rgb.2.1 240 (by norm_num) (by norm_num)⟩⟩

/-! ### Characterization of the iterator primitives -/

theorem drop_len_le (w : List Char) (p : Nat) (h : w.length ≤ p) : w.drop p = [] :=
  List.drop_eq_nil_of_le h

theorem twgAux_char (f : Char → Bool) :
    ∀ (fuel : Nat) (it : PositionedIterator),
      it.wrapped.length - it.pos1 < fuel →
      twgAux f fuel it =
        if ((it.wrapped.drop it.pos1).all f) then none
        else some ((it.wrapped.drop it.pos1).takeWhile f,
                   { it with pos1 := it.pos1 + ((it.wrapped.drop it.pos1).takeWhile f).length }) := by
  intro fuel
  induction fuel with
  | zero => intro it h; omega
  | succ fuel ih =>
      intro it h
      by_cases hp : it.pos1 < it.wrapped.length
      · have hdrop : it.wrapped.drop it.pos1 =
            it.wrapped.get ⟨it.pos1, hp⟩ :: it.wrapped.drop (it.pos1 + 1) := by
          rw [List.drop_eq_getElem_cons hp]
          rfl
        have hnext : nextc it =
            some (it.wrapped.get ⟨it.pos1, hp⟩, { it with pos1 := it.pos1 + 1 }) := by
          simp [nextc, hp]
        simp only [twgAux, hnext]
        by_cases hf : f (it.wrapped.get ⟨it.pos1, hp⟩)
        · rw [if_pos hf]
          have hb : it.wrapped.length - (it.pos1 + 1) < fuel := by omega
          have hrec := ih { it with pos1 := it.pos1 + 1 } hb
          simp only at hrec
          rw [hrec, hdrop]
          by_cases hall : ((it.wrapped.drop (it.pos1 + 1)).all f)
          · have hcpos :
                ((it.wrapped.get ⟨it.pos1, hp⟩ :: it.wrapped.drop (it.pos1 + 1)).all f) = true := by
              rw [List.all_cons, hf, hall]
              rfl
            rw [if_pos hall, if_pos hcpos]
          · have hcneg :
                ¬ ((it.wrapped.get ⟨it.pos1, hp⟩ :: it.wrapped.drop (it.pos1 + 1)).all f) = true := by
              rw [List.all_cons, hf]
              simpa using hall
            rw [if_neg hall, if_neg hcneg]
            simp only [List.takeWhile_cons, hf, if_true, List.length_cons, Option.some.injEq]
            have harith : it.pos1 + 1 +
                (List.takeWhile f (List.drop (it.pos1 + 1) it.wrapped)).length =
                it.pos1 + ((List.takeWhile f (List.drop (it.pos1 + 1) it.wrapped)).length + 1) := by
              omega
            rw [harith]
        · have hf2 : f (it.wrapped.get ⟨it.pos1, hp⟩) = false := by
            simpa using hf
          rw [if_neg hf, hdrop]
          have hcneg :
              ¬ ((it.wrapped.get ⟨it.pos1, hp⟩ :: it.wrapped.drop (it.pos1 + 1)).all f) = true := by
            rw [List.all_cons, hf2]
            simp
          rw [if_neg hcneg]
          simp only [List.takeWhile_cons, hf2, Bool.false_eq_true, if_false,
            List.length_nil, Nat.add_zero, Nat.add_sub_cancel, Option.some.injEq]
      · have hnone : nextc it = none := by
          simp [nextc, hp]
        have hdrop : it.wrapped.drop it.pos1 = [] :=
          drop_len_le _ _ (by omega)
        rw [twgAux, hnone, hdrop]
        simp

theorem takewhile_greedy_char (f : Char → Bool) (it : PositionedIterator) :
    takewhile_greedy f it =
      if ((it.wrapped.drop it.pos1).all f) then none
      else some ((it.wrapped.drop it.pos1).takeWhile f,
                 { it with pos1 := it.pos1 + ((it.wrapped.drop it.pos1).takeWhile f).length }) :=
  twgAux_char f _ it (by omega)

theorem dropWhile_head_false (f : Char → Bool) :
    ∀ (l : List Char) (t : Char) (rest : List Char),
      l.dropWhile f = t :: rest → f t = false := by
  intro l
  induction l with
  | nil => intro t rest h; cases h
  | cons a l ih =>
      intro t rest h
      rw [List.dropWhile_cons] at h
      by_cases ha : f a
      · rw [if_pos ha] at h
        exact ih t rest h
      · rw [if_neg ha] at h
        cases h
        simpa using ha

theorem drop_takeWhile_len (f : Char → Bool) (r : List Char) :
    r.drop (r.takeWhile f).length = r.dropWhile f := by
  have h := List.takeWhile_append_dropWhile (p := f) (l := r)
  calc r.drop (r.takeWhile f).length
      = (r.takeWhile f ++ r.dropWhile f).drop (r.takeWhile f).length := by rw [h]
    _ = r.dropWhile f := List.drop_left _ _

theorem drop_cons_getElem (w : List Char) (n : Nat) (t : Char) (rest : List Char)
    (h : w.drop n = t :: rest) :
    ∃ hn : n < w.length, w.get ⟨n, hn⟩ = t := by
  have hlen : w.length - n = rest.length + 1 := by
    have := congrArg List.length h
    simpa using this
  have hn : n < w.length := by omega
  refine ⟨hn, ?_⟩
  rw [List.drop_eq_getElem_cons hn] at h
  exact (List.cons.injEq _ _ _ _ ▸ h).1

/-- C8: takewhile_greedy consumes elements while the predicate holds; when
the predicate fails at some element `t` before exhaustion, it returns
exactly the maximal prefix of the remaining elements satisfying the
predicate (without `t`), and the cursor is rewound so that `t` is the next
element returned; when the predicate holds for all remaining elements, it
signals Exhausted (StopIteration, modelled as `none`). -/
theorem C8_takewhile_greedy (f : Char → Bool) (it : PositionedIterator) :
    (((it.wrapped.drop it.pos1).all f = true) → takewhile_greedy f it = none) ∧
    (∀ t rest, (it.wrapped.drop it.pos1).dropWhile f = t :: rest →
      f t = false ∧
      ((it.wrapped.drop it.pos1).takeWhile f).all f = true ∧
      (it.wrapped.drop it.pos1).takeWhile f ++ t :: rest = it.wrapped.drop it.pos1 ∧
      takewhile_greedy f it =
        some ((it.wrapped.drop it.pos1).takeWhile f,
          { it with pos1 := it.pos1 + ((it.wrapped.drop it.pos1).takeWhile f).length }) ∧
      (nextc { it with pos1 := it.pos1 + ((it.wrapped.drop it.pos1).takeWhile f).length }).map
        (fun x => x.1) = some t) := by
  constructor
  · intro hall
    rw [takewhile_greedy_char, if_pos hall]
  · intro t rest hdw
    have hnotall : ¬ ((it.wrapped.drop it.pos1).all f = true) := by
      intro hall
      have : (it.wrapped.drop it.pos1).dropWhile f = [] :=
        List.dropWhile_eq_nil_iff.2 (fun x hx => by
          have := List.all_eq_true.1 hall x hx
          exact this)
      rw [this] at hdw
      cases hdw
    have hdropfull :
        it.wrapped.drop (it.pos1 + ((it.wrapped.drop it.pos1).takeWhile f).length) =
          t :: rest := by
      rw [← List.drop_drop]
      rw [drop_takeWhile_len, hdw]
    obtain ⟨hn, hget⟩ := drop_cons_getElem _ _ _ _ hdropfull
    refine ⟨dropWhile_head_false f _ t rest hdw, List.all_takeWhile, ?_, ?_, ?_⟩
    · rw [← hdw]
      exact List.takeWhile_append_dropWhile _ _
    · rw [takewhile_greedy_char, if_neg hnotall]
    · simp only [nextc, hn, dif_pos]
      rw [hget]
      rfl

/-- Witness for C8_takewhile_greedy: on the iterator over "foo;bar" at the
start, taking while not-';' yields "foo" and leaves ';' as the next
element; taking while is-alphanumeric-or-';' (true on everything) is
Exhausted. -/
theorem C8_takewhile_greedy_witness :
    takewhile_greedy (fun c => c ≠ ';') ⟨['f', 'o', 'o', ';', 'b', 'a', 'r'], 0, []⟩ =
      some (['f', 'o', 'o'], ⟨['f', 'o', 'o', ';', 'b', 'a', 'r'], 3, []⟩) ∧
    takewhile_greedy (fun _ => true) ⟨['f', 'o', 'o', ';', 'b', 'a', 'r'], 0, []⟩ = none := by
  constructor
  · have h := (C8_takewhile_greedy (fun c => c ≠ ';')
      ⟨['f', 'o', 'o', ';', 'b', 'a', 'r'], 0, []⟩).2 ';' ['b', 'a', 'r'] (by decide)
    exact h.2.2.2.1
  · exact (C8_takewhile_greedy (fun _ => true)
      ⟨['f', 'o', 'o', ';', 'b', 'a', 'r'], 0, []⟩).1 (by decide)

theorem csi_char_exhausted1 (it : PositionedIterator)
    (h : (it.wrapped.drop it.pos1).all csi_parameter_byte = true) :
    parse_csi_sequence it = .error .exhausted := by
  rw [parse_csi_sequence, takewhile_greedy_char, if_pos h]

theorem csi_char_exhausted2 (it : PositionedIterator)
    (h1 : ¬ (it.wrapped.drop it.pos1).all csi_parameter_byte = true)
    (h2 : ((it.wrapped.drop it.pos1).dropWhile csi_parameter_byte).all
            csi_intermediate_byte = true) :
    parse_csi_sequence it = .error .exhausted := by
  rw [parse_csi_sequence, takewhile_greedy_char, if_neg h1]
  have hd :
      it.wrapped.drop (it.pos1 +
        ((it.wrapped.drop it.pos1).takeWhile csi_parameter_byte).length) =
      (it.wrapped.drop it.pos1).dropWhile csi_parameter_byte := by
    rw [← List.drop_drop, drop_takeWhile_len]
  simp only
  rw [takewhile_greedy_char]
  simp only [hd]
  rw [if_pos h2]

theorem csi_char_main (it : PositionedIterator) (fin : Char) (rest3 : List Char)
    (h3 : ((it.wrapped.drop it.pos1).dropWhile csi_parameter_byte).dropWhile
            csi_intermediate_byte = fin :: rest3) :
    parse_csi_sequence it =
      if csi_final_byte fin then
        .ok ((if fin = 'm' then
                parse_sgr_sequence ((it.wrapped.drop it.pos1).takeWhile csi_parameter_byte)
              else []),
             { it with pos1 := it.pos1 +
                 ((it.wrapped.drop it.pos1).takeWhile csi_parameter_byte).length +
                 (((it.wrapped.drop it.pos1).dropWhile csi_parameter_byte).takeWhile
                    csi_intermediate_byte).length + 1 })
      else .error .assertFail := by
  have h1 : ¬ (it.wrapped.drop it.pos1).all csi_parameter_byte = true := by
    intro hall
    have : (it.wrapped.drop it.pos1).dropWhile csi_parameter_byte = [] :=
      List.dropWhile_eq_nil_iff.2 (fun x hx => List.all_eq_true.1 hall x hx)
    rw [this] at h3
    cases h3
  have h2 : ¬ ((it.wrapped.drop it.pos1).dropWhile csi_parameter_byte).all
      csi_intermediate_byte = true := by
    intro hall
    have : ((it.wrapped.drop it.pos1).dropWhile csi_parameter_byte).dropWhile
        csi_intermediate_byte = [] :=
      List.dropWhile_eq_nil_iff.2 (fun x hx => List.all_eq_true.1 hall x hx)
    rw [this] at h3
    cases h3
  have hd1 :
      it.wrapped.drop (it.pos1 +
        ((it.wrapped.drop it.pos1).takeWhile csi_parameter_byte).length) =
      (it.wrapped.drop it.pos1).dropWhile csi_parameter_byte := by
    rw [← List.drop_drop, drop_takeWhile_len]
  have hd2 :
      it.wrapped.drop (it.pos1 +
        ((it.wrapped.drop it.pos1).takeWhile csi_parameter_byte).length +
        (((it.wrapped.drop it.pos1).dropWhile csi_parameter_byte).takeWhile
           csi_intermediate_byte).length) =
      ((it.wrapped.drop it.pos1).dropWhile csi_parameter_byte).dropWhile
        csi_intermediate_byte := by
    rw [← List.drop_drop, hd1, drop_takeWhile_len]
  obtain ⟨hn, hget⟩ := drop_cons_getElem _ _ _ _ (hd2.trans h3)
  rw [parse_csi_sequence, takewhile_greedy_char, if_neg h1]
  simp only
  rw [takewhile_greedy_char]
  simp only [hd1]
  rw [if_neg h2]
  simp only [nextc, hn, dif_pos, hget]
  by_cases hfin : csi_final_byte fin
  · rw [if_pos hfin, if_pos hfin]
    by_cases hm : fin = 'm'
    · rw [if_pos hm, if_pos hm]
    · rw [if_neg hm, if_neg hm]
  · rw [if_neg hfin, if_neg hfin]

theorem parseStep_eq (it : PositionedIterator) (s : Nat) (ig : Bool)
    (rec : PositionedIterator → Nat → Bool → LoopOut) :
    parseStep it s ig rec =
      match stepRes it.wrapped it.pos1 s ig with
      | .exit evs lo => ⟨evs, lo, []⟩
      | .cont evs csi p2 s2 ig2 pushed =>
          let rest := rec ⟨it.wrapped, p2,
            if pushed then it.pos1 :: it.waypoints else it.waypoints⟩ s2 ig2
          ⟨evs ++ rest.evs, rest.leftover, csi ++ rest.csi⟩ := by
  by_cases hp : it.pos1 < it.wrapped.length
  case neg =>
    have hnext : nextc it = none := by simp [nextc, hp]
    rw [parseStep, hnext, stepRes]
    rw [dif_neg hp]
  case pos =>
  have hnext : nextc it = some (it.wrapped.get ⟨it.pos1, hp⟩, { it with pos1 := it.pos1 + 1 }) := by
    simp [nextc, hp]
  rw [parseStep, hnext]
  rw [stepRes, dif_pos hp]
  simp only
  by_cases hbel : it.wrapped.get ⟨it.pos1, hp⟩ = '\x07'
  · -- BEL branch
    rw [if_pos hbel, if_pos hbel]
    simp [flushEvs]
  · rw [if_neg hbel, if_neg hbel]
    by_cases hesc : it.wrapped.get ⟨it.pos1, hp⟩ = '\x1b'
    case neg =>
      -- ordinary character
      rw [if_neg hesc, if_neg hesc]
      by_cases hend : it.pos1 + 1 = it.wrapped.length
      · have hemp : emptyIt { it with pos1 := it.pos1 + 1 } = true := by
          simp [emptyIt, hend]
        rw [if_pos hend]
        simp [hemp, flushEvs]
      · have hemp : emptyIt { it with pos1 := it.pos1 + 1 } = false := by
          simp [emptyIt, hend]
        rw [if_neg hend]
        simp [hemp, flushEvs]
    case pos =>
      rw [if_pos hesc, if_pos hesc]
      by_cases hig : ig
      · -- ESC with ignore_esc set: ordinary character, clear the flag
        rw [if_pos hig, if_pos hig]
        by_cases hend : it.pos1 + 1 = it.wrapped.length
        · have hemp : emptyIt { it with pos1 := it.pos1 + 1 } = true := by
            simp [emptyIt, hend]
          rw [if_pos hend]
          simp [hemp, flushEvs]
        · have hemp : emptyIt { it with pos1 := it.pos1 + 1 } = false := by
            simp [emptyIt, hend]
          rw [if_neg hend]
          simp [hemp, flushEvs]
      · rw [if_neg hig, if_neg hig]
        -- escape attempt; waypoint pushed
        have hwp : waypoint { it with pos1 := it.pos1 + 1 } =
            ⟨it.wrapped, it.pos1 + 1, it.pos1 :: it.waypoints⟩ := by
          simp [waypoint]
        by_cases hp1 : it.pos1 + 1 < it.wrapped.length
        case neg =>
          -- StopIteration right after the ESC
          have hnext2 : nextc (waypoint { it with pos1 := it.pos1 + 1 }) = none := by
            rw [hwp]
            simp [nextc, hp1]
          rw [hnext2, dif_neg hp1]
          simp [flushEvs]
        case pos =>
          have hnext2 : nextc (waypoint { it with pos1 := it.pos1 + 1 }) =
              some (it.wrapped.get ⟨it.pos1 + 1, hp1⟩,
                ⟨it.wrapped, it.pos1 + 2, it.pos1 :: it.waypoints⟩) := by
            rw [hwp]
            simp [nextc, hp1]
          rw [hnext2, dif_pos hp1]
          simp only
          by_cases hbr : it.wrapped.get ⟨it.pos1 + 1, hp1⟩ = '['
          case neg =>
            -- unrecognized escape family: backtrack, ignore_esc once
            rw [if_neg hbr, if_neg hbr]
            have hbt : backtrack ⟨it.wrapped, it.pos1 + 2, it.pos1 :: it.waypoints⟩ =
                ⟨it.wrapped, it.pos1, it.waypoints⟩ := by
              simp [backtrack]
            rw [hbt]
            simp [flushEvs]
          case pos =>
            rw [if_pos hbr, if_pos hbr]
            -- the CSI scanner runs at position pos1 + 2
            have hit3 : (⟨it.wrapped, it.pos1 + 2, it.pos1 :: it.waypoints⟩ :
                PositionedIterator).wrapped.drop
                  (⟨it.wrapped, it.pos1 + 2, it.pos1 :: it.waypoints⟩ :
                    PositionedIterator).pos1 = it.wrapped.drop (it.pos1 + 2) := rfl
            by_cases hall1 : ((it.wrapped.drop (it.pos1 + 2)).all csi_parameter_byte = true)
            · have hcsi := csi_char_exhausted1
                ⟨it.wrapped, it.pos1 + 2, it.pos1 :: it.waypoints⟩ (by exact hall1)
              rw [hcsi, if_pos hall1]
              simp [flushEvs]
            · rw [if_neg hall1]
              by_cases hall2 : (((it.wrapped.drop (it.pos1 + 2)).dropWhile
                  csi_parameter_byte).all csi_intermediate_byte = true)
              · have hcsi := csi_char_exhausted2
                  ⟨it.wrapped, it.pos1 + 2, it.pos1 :: it.waypoints⟩ (by exact hall1)
                  (by exact hall2)
                rw [hcsi, if_pos hall2]
                simp [flushEvs]
              · rw [if_neg hall2]
                -- a final byte candidate exists
                have hne : ((it.wrapped.drop (it.pos1 + 2)).dropWhile
                    csi_parameter_byte).dropWhile csi_intermediate_byte ≠ [] := by
                  intro hnil
                  exact hall2 (List.all_eq_true.2
                    (fun x hx => List.dropWhile_eq_nil_iff.1 hnil x hx))
                obtain ⟨fin, rest3, h3⟩ := List.exists_cons_of_ne_nil hne
                have hcsi := csi_char_main
                  ⟨it.wrapped, it.pos1 + 2, it.pos1 :: it.waypoints⟩ fin rest3 (by exact h3)
                rw [hcsi, h3]
                simp only at hcsi ⊢
                by_cases hfin : csi_final_byte fin
                · rw [if_pos hfin, if_pos hfin]
                  simp [flushEvs]
                · rw [if_neg hfin, if_neg hfin]
                  have hbt : backtrack ⟨it.wrapped, it.pos1 + 2, it.pos1 :: it.waypoints⟩ =
                      ⟨it.wrapped, it.pos1, it.waypoints⟩ := by
                    simp [backtrack]
                  simp [flushEvs, hbt]

theorem stepRes_cont_bound (w : List Char) (p s : Nat) (ig : Bool)
    (evs : List PEvent) (csi : List (Nat × Nat)) (p2 s2 : Nat) (ig2 pushed : Bool)
    (h : stepRes w p s ig = .cont evs csi p2 s2 ig2 pushed) :
    p < w.length ∧ p2 ≤ w.length ∧ mWeight w p2 ig2 < mWeight w p ig := by
  by_cases hp : p < w.length
  case neg =>
    rw [stepRes, dif_neg hp] at h
    cases h
  case pos =>
  rw [stepRes, dif_pos hp] at h
  simp only at h
  refine ⟨hp, ?_⟩
  by_cases hbel : w.get ⟨p, hp⟩ = '\x07'
  · rw [if_pos hbel] at h
    cases h
    refine ⟨by omega, ?_⟩
    simp only [mWeight]
    by_cases hg : ig <;> simp [hg] <;> omega
  · rw [if_neg hbel] at h
    by_cases hesc : w.get ⟨p, hp⟩ = '\x1b'
    case neg =>
      rw [if_neg hesc] at h
      by_cases hend : p + 1 = w.length
      · rw [if_pos hend] at h
        cases h
        refine ⟨by omega, ?_⟩
        simp only [mWeight]
        by_cases hg : ig <;> simp [hg] <;> omega
      · rw [if_neg hend] at h
        cases h
        refine ⟨by omega, ?_⟩
        simp only [mWeight]
        by_cases hg : ig <;> simp [hg] <;> omega
    case pos =>
      rw [if_pos hesc] at h
      by_cases hig : ig
      · rw [if_pos hig] at h
        by_cases hend : p + 1 = w.length
        · rw [if_pos hend] at h
          cases h
          refine ⟨by omega, ?_⟩
          simp only [mWeight]
          simp [hig]
          omega
        · rw [if_neg hend] at h
          cases h
          refine ⟨by omega, ?_⟩
          simp only [mWeight]
          simp [hig]
          omega
      · rw [if_neg hig] at h
        have hig2 : ig = false := by simpa using hig
        subst hig2
        by_cases hp1 : p + 1 < w.length
        case neg =>
          rw [dif_neg hp1] at h
          cases h
        case pos =>
          rw [dif_pos hp1] at h
          by_cases hbr : w.get ⟨p + 1, hp1⟩ = '['
          case neg =>
            rw [if_neg hbr] at h
            cases h
            refine ⟨by omega, ?_⟩
            simp [mWeight]
          case pos =>
            rw [if_pos hbr] at h
            by_cases hall1 : ((w.drop (p + 2)).all csi_parameter_byte = true)
            · rw [if_pos hall1] at h
              cases h
            · rw [if_neg hall1] at h
              by_cases hall2 : (((w.drop (p + 2)).dropWhile csi_parameter_byte).all
                  csi_intermediate_byte = true)
              · rw [if_pos hall2] at h
                cases h
              · rw [if_neg hall2] at h
                rcases h3 : ((w.drop (p + 2)).dropWhile csi_parameter_byte).dropWhile
                    csi_intermediate_byte with _ | ⟨fin, rest3⟩
                · rw [h3] at h
                  cases h
                · rw [h3] at h
                  simp only at h
                  have hd1 : w.drop (p + 2 +
                      ((w.drop (p + 2)).takeWhile csi_parameter_byte).length) =
                      (w.drop (p + 2)).dropWhile csi_parameter_byte := by
                    rw [← List.drop_drop, drop_takeWhile_len]
                  have hd2 : w.drop (p + 2 +
                      ((w.drop (p + 2)).takeWhile csi_parameter_byte).length +
                      (((w.drop (p + 2)).dropWhile csi_parameter_byte).takeWhile
                        csi_intermediate_byte).length) =
                      ((w.drop (p + 2)).dropWhile csi_parameter_byte).dropWhile
                        csi_intermediate_byte := by
                    rw [← List.drop_drop, hd1, drop_takeWhile_len]
                  have hlen := congrArg List.length (hd2.trans h3)
                  simp only [List.length_drop, List.length_cons] at hlen
                  by_cases hfin : csi_final_byte fin
                  · rw [if_pos hfin] at h
                    cases h
                    refine ⟨by omega, ?_⟩
                    simp [mWeight]
                    omega
                  · rw [if_neg hfin] at h
                    cases h
                    refine ⟨by omega, ?_⟩
                    simp [mWeight]

theorem parseLoop_fuel :
    ∀ (f1 : Nat) (f2 : Nat) (it : PositionedIterator) (s : Nat) (ig : Bool),
      mWeight it.wrapped it.pos1 ig ≤ f1 → mWeight it.wrapped it.pos1 ig ≤ f2 →
      parseLoop f1 it s ig = parseLoop f2 it s ig := by
  intro f1
  induction f1 with
  | zero =>
      intro f2 it s ig h1 h2
      exfalso
      simp only [mWeight] at h1
      by_cases hg : ig <;> simp [hg] at h1
  | succ f1 ih =>
      intro f2 it s ig h1 h2
      rcases f2 with _ | f2
      · exfalso
        simp only [mWeight] at h2
        by_cases hg : ig <;> simp [hg] at h2
      · rw [parseLoop, parseLoop, parseStep_eq, parseStep_eq]
        rcases hst : stepRes it.wrapped it.pos1 s ig with
            ⟨evs, csi, p2, s2, ig2, pushed⟩ | ⟨evs, lo⟩
        · simp only
          obtain ⟨hplt, hp2, hlt⟩ := stepRes_cont_bound _ _ _ _ _ _ _ _ _ _ hst
          have heq := ih f2 ⟨it.wrapped, p2,
              if pushed then it.pos1 :: it.waypoints else it.waypoints⟩ s2 ig2
            (show mWeight it.wrapped p2 ig2 ≤ f1 by omega)
            (show mWeight it.wrapped p2 ig2 ≤ f2 by omega)
          rw [heq]
        · simp only

theorem runFrom_eq_parseLoop (fuel : Nat) (it : PositionedIterator) (s : Nat) (ig : Bool)
    (h : mWeight it.wrapped it.pos1 ig ≤ fuel) :
    parseLoop fuel it s ig = runFrom it s ig := by
  apply parseLoop_fuel _ _ _ _ _ h
  simp only [mWeight]
  by_cases hg : ig <;> simp [hg] <;> omega

theorem runFrom_unfold (it : PositionedIterator) (s : Nat) (ig : Bool) :
    runFrom it s ig =
      match stepRes it.wrapped it.pos1 s ig with
      | .exit evs lo => ⟨evs, lo, []⟩
      | .cont evs csi p2 s2 ig2 pushed =>
          let rest := runFrom ⟨it.wrapped, p2,
            if pushed then it.pos1 :: it.waypoints else it.waypoints⟩ s2 ig2
          ⟨evs ++ rest.evs, rest.leftover, csi ++ rest.csi⟩ := by
  rw [runFrom]
  have hsucc : 2 * it.wrapped.length + 2 = (2 * it.wrapped.length + 1) + 1 := rfl
  rw [hsucc, parseLoop, parseStep_eq]
  rcases hst : stepRes it.wrapped it.pos1 s ig with
      ⟨evs, csi, p2, s2, ig2, pushed⟩ | ⟨evs, lo⟩
  · simp only
    obtain ⟨hplt, hp2, hlt⟩ := stepRes_cont_bound _ _ _ _ _ _ _ _ _ _ hst
    have hb : mWeight it.wrapped p2 ig2 ≤ 2 * it.wrapped.length + 1 := by
      have : mWeight it.wrapped it.pos1 ig ≤ 2 * it.wrapped.length + 2 := by
        simp only [mWeight]
        by_cases hg : ig <;> simp [hg] <;> omega
      omega
    have heq := runFrom_eq_parseLoop (2 * it.wrapped.length + 1)
      ⟨it.wrapped, p2, if pushed then it.pos1 :: it.waypoints else it.waypoints⟩ s2 ig2
      (show mWeight it.wrapped p2 ig2 ≤ 2 * it.wrapped.length + 1 from hb)
    rw [heq]
  · simp only

theorem flushEvs_shift (k s e : Nat) :
    flushEvs (k + s) (k + e) = (flushEvs s e).map (shiftEv k) := by
  unfold flushEvs
  by_cases h : e > s
  · rw [if_pos h, if_pos (by omega)]
    rfl
  · rw [if_neg h, if_neg (by omega)]
    rfl

theorem get_append_right (u v : List Char) (p : Nat) (hp : p < v.length)
    (h : u.length + p < (u ++ v).length) :
    (u ++ v).get ⟨u.length + p, h⟩ = v.get ⟨p, hp⟩ := by
  simp [List.getElem_append_right]

theorem drop_append_shift (u v : List Char) (p : Nat) :
    (u ++ v).drop (u.length + p) = v.drop p := by
  rw [← List.drop_drop, List.drop_left]

theorem stepRes_shift (u v : List Char) (p s : Nat) (ig : Bool) :
    stepRes (u ++ v) (u.length + p) (u.length + s) ig =
      shiftStep u.length (stepRes v p s ig) := by
  by_cases hp : p < v.length
  case neg =>
    have hp2 : ¬ u.length + p < (u ++ v).length := by
      simp [List.length_append]
      omega
    rw [stepRes, dif_neg hp2, stepRes, dif_neg hp]
    rfl
  case pos =>
  have hp2 : u.length + p < (u ++ v).length := by
    simp [List.length_append]
    omega
  rw [stepRes, dif_pos hp2, stepRes, dif_pos hp]
  simp only
  rw [get_append_right u v p hp hp2]
  by_cases hbel : v.get ⟨p, hp⟩ = '\x07'
  · rw [if_pos hbel, if_pos hbel]
    simp [shiftStep, shiftEv, flushEvs_shift, Nat.add_assoc]
  · rw [if_neg hbel, if_neg hbel]
    by_cases hesc : v.get ⟨p, hp⟩ = '\x1b'
    case neg =>
      rw [if_neg hesc, if_neg hesc]
      by_cases hend : p + 1 = v.length
      · have hend2 : u.length + p + 1 = (u ++ v).length := by
          simp [List.length_append]
          omega
        rw [if_pos hend2, if_pos hend]
        simp [shiftStep, shiftEv, flushEvs_shift, Nat.add_assoc]
      · have hend2 : ¬ u.length + p + 1 = (u ++ v).length := by
          simp [List.length_append]
          omega
        rw [if_neg hend2, if_neg hend]
        rfl
    case pos =>
      rw [if_pos hesc, if_pos hesc]
      by_cases hig : ig
      · rw [if_pos hig, if_pos hig]
        by_cases hend : p + 1 = v.length
        · have hend2 : u.length + p + 1 = (u ++ v).length := by
            simp [List.length_append]
            omega
          rw [if_pos hend2, if_pos hend]
          simp [shiftStep, shiftEv, flushEvs_shift, Nat.add_assoc]
        · have hend2 : ¬ u.length + p + 1 = (u ++ v).length := by
            simp [List.length_append]
            omega
          rw [if_neg hend2, if_neg hend]
          rfl
      · rw [if_neg hig, if_neg hig]
        by_cases hp1 : p + 1 < v.length
        case neg =>
          have hp12 : ¬ u.length + p + 1 < (u ++ v).length := by
            simp [List.length_append]
            omega
          rw [dif_neg hp12, dif_neg hp1]
          have hdp : (u ++ v).drop (u.length + p) = v.drop p := drop_append_shift u v p
          rw [hdp, flushEvs_shift]
          rfl
        case pos =>
          have hp12 : u.length + p + 1 < (u ++ v).length := by
            simp [List.length_append]
            omega
          rw [dif_pos hp12, dif_pos hp1]
          have hg1 : (u ++ v).get ⟨u.length + p + 1, hp12⟩ = v.get ⟨p + 1, hp1⟩ := by
            have : u.length + p + 1 = u.length + (p + 1) := by omega
            rw [show (⟨u.length + p + 1, hp12⟩ : Fin (u ++ v).length) =
                ⟨u.length + (p + 1), by omega⟩ from by simp [this]]
            exact get_append_right u v (p + 1) hp1 _
          rw [hg1]
          by_cases hbr : v.get ⟨p + 1, hp1⟩ = '['
          case neg =>
            rw [if_neg hbr, if_neg hbr]
            rw [flushEvs_shift]
            rfl
          case pos =>
            rw [if_pos hbr, if_pos hbr]
            have hdp2 : (u ++ v).drop (u.length + p + 2) = v.drop (p + 2) := by
              have : u.length + p + 2 = u.length + (p + 2) := by omega
              rw [this, drop_append_shift]
            simp only [hdp2]
            by_cases hall1 : ((v.drop (p + 2)).all csi_parameter_byte = true)
            · rw [if_pos hall1, if_pos hall1]
              have hdp : (u ++ v).drop (u.length + p) = v.drop p := drop_append_shift u v p
              rw [hdp, flushEvs_shift]
              rfl
            · rw [if_neg hall1, if_neg hall1]
              by_cases hall2 : (((v.drop (p + 2)).dropWhile csi_parameter_byte).all
                  csi_intermediate_byte = true)
              · rw [if_pos hall2, if_pos hall2]
                have hdp : (u ++ v).drop (u.length + p) = v.drop p := drop_append_shift u v p
                rw [hdp, flushEvs_shift]
                rfl
              · rw [if_neg hall2, if_neg hall2]
                rcases h3 : ((v.drop (p + 2)).dropWhile csi_parameter_byte).dropWhile
                    csi_intermediate_byte with _ | ⟨fin, rest3⟩
                · rfl
                · simp only
                  by_cases hfin : csi_final_byte fin
                  · rw [if_pos hfin, if_pos hfin]
                    simp [shiftStep, shiftEv, flushEvs_shift, Nat.add_assoc]
                  · rw [if_neg hfin, if_neg hfin]
                    rw [flushEvs_shift]
                    rfl

theorem runFrom_shift :
    ∀ (m : Nat) (u v : List Char) (p s : Nat) (ig : Bool) (ws1 ws2 : List Nat),
      mWeight v p ig ≤ m →
      runFrom ⟨u ++ v, u.length + p, ws1⟩ (u.length + s) ig =
        ⟨(runFrom ⟨v, p, ws2⟩ s ig).evs.map (shiftEv u.length),
         (runFrom ⟨v, p, ws2⟩ s ig).leftover,
         (runFrom ⟨v, p, ws2⟩ s ig).csi.map
           (fun ab => (u.length + ab.1, u.length + ab.2))⟩ := by
  intro m
  induction m with
  | zero =>
      intro u v p s ig ws1 ws2 hm
      exfalso
      simp only [mWeight] at hm
      by_cases hg : ig <;> simp [hg] at hm
  | succ m ih =>
      intro u v p s ig ws1 ws2 hm
      rw [runFrom_unfold, runFrom_unfold]
      simp only
      rw [stepRes_shift u v p s ig]
      rcases hst : stepRes v p s ig with ⟨evs, csi, p2, s2, ig2, pushed⟩ | ⟨evs, lo⟩
      · simp only [shiftStep]
        obtain ⟨hplt, hp2, hlt⟩ := stepRes_cont_bound _ _ _ _ _ _ _ _ _ _ hst
        have hrec := ih u v p2 s2 ig2
          ((u.length + p) :: ws1) (p :: ws2) (by omega)
        have hrec2 := ih u v p2 s2 ig2 ws1 ws2 (by omega)
        rcases pushed with _ | _
        · simp only [if_false, Bool.false_eq_true]
          rw [hrec2]
          simp [List.map_append]
        · simp only [if_true]
          rw [hrec]
          simp [List.map_append]
      · simp [shiftStep]

theorem inter_not_param (c : Char) (h : csi_intermediate_byte c = true) :
    csi_parameter_byte c = false := by
  simp [csi_intermediate_byte] at h
  simp [csi_parameter_byte]
  omega

theorem final_not_param (c : Char) (h : csi_final_byte c = true) :
    csi_parameter_byte c = false := by
  simp [csi_final_byte] at h
  simp [csi_parameter_byte]
  omega

theorem final_not_inter (c : Char) (h : csi_final_byte c = true) :
    csi_intermediate_byte c = false := by
  simp [csi_final_byte] at h
  simp [csi_intermediate_byte]
  omega

theorem takeWhile_all_append (f : Char → Bool) :
    ∀ (a b : List Char), (∀ x ∈ a, f x = true) →
      (∀ y ys, b = y :: ys → f y = false) →
      (a ++ b).takeWhile f = a ∧ (a ++ b).dropWhile f = b := by
  intro a
  induction a with
  | nil =>
      intro b _ hb
      rcases b with _ | ⟨y, ys⟩
      · exact ⟨rfl, rfl⟩
      · have := hb y ys rfl
        simp [List.takeWhile_cons, List.dropWhile_cons, this]
  | cons x a ih =>
      intro b ha hb
      have hx : f x = true := ha x (List.mem_cons_self x a)
      have hrest := ih b (fun z hz => ha z (List.mem_cons_of_mem x hz)) hb
      simp [List.takeWhile_cons, List.dropWhile_cons, hx, hrest.1, hrest.2]

theorem pySlice_shift (u v : List Char) (a b : Nat) :
    pySlice (u ++ v) (u.length + a) (u.length + b) = pySlice v a b := by
  unfold pySlice
  rw [drop_append_shift]
  congr 1
  omega

theorem eraseEv_shift (u v : List Char) (e : PEvent) :
    eraseEv (u ++ v) (shiftEv u.length e) = eraseEv v e := by
  rcases e with ⟨a, b⟩ | _ | ⟨c, vv⟩
  · simp [eraseEv, shiftEv, pySlice_shift]
  · rfl
  · rfl

theorem runFrom_is_parseRaw (w : List Char) :
    runFrom ⟨w, 0, []⟩ 0 false = parseRaw w := rfl

/-- C9: a syntactically valid CSI sequence (ESC '[', parameter bytes,
intermediate bytes, a final byte in 0x40..0x7E) whose final byte is not
'm' produces no event and leaks no character into any TEXT payload: a
fresh parse of the sequence followed by anything behaves exactly like a
parse of the rest alone; in particular parse("\x1b[2J") yields no event. -/
theorem C9_unsupported_csi :
    (∀ (ps is_ v : List Char) (fb : Char),
      ps.all csi_parameter_byte = true →
      is_.all csi_intermediate_byte = true →
      csi_final_byte fb = true → fb ≠ 'm' →
      Parser.parse [] (('\x1b' :: '[' :: (ps ++ is_ ++ [fb])) ++ v) =
        Parser.parse [] v) ∧
    Parser.parse [] ['\x1b', '[', '2', 'J'] = ([], []) := by
  constructor
  · intro ps is_ v fb hps his hfb hm
    set S : List Char := '\x1b' :: '[' :: (ps ++ is_ ++ [fb]) with hS
    set w : List Char := S ++ v with hw
    have hw2 : w = '\x1b' :: '[' :: ((ps ++ is_ ++ [fb]) ++ v) := by
      simp [hw, hS]
    have hrem : w.drop 2 = ps ++ (is_ ++ ([fb] ++ v)) := by
      rw [hw2]
      simp [List.append_assoc]
    have htw1 := takeWhile_all_append csi_parameter_byte ps (is_ ++ ([fb] ++ v))
      (fun x hx => List.all_eq_true.1 hps x hx)
      (by
        intro y ys hy
        rcases is_ with _ | ⟨z, zs⟩
        · simp only [List.nil_append, List.singleton_append, List.cons.injEq] at hy
          rw [← hy.1]
          exact final_not_param fb hfb
        · simp only [List.cons_append, List.cons.injEq] at hy
          rw [← hy.1]
          exact inter_not_param z (List.all_eq_true.1 his z (List.mem_cons_self z zs)))
    have htw2 := takeWhile_all_append csi_intermediate_byte is_ ([fb] ++ v)
      (fun x hx => List.all_eq_true.1 his x hx)
      (by
        intro y ys hy
        simp at hy
        rw [← hy.1]
        exact final_not_inter fb hfb)
    have hstep : stepRes w 0 0 false =
        .cont [] [(0, S.length)] S.length S.length false true := by
      have hlen : 2 + ps.length + is_.length + 1 ≤ w.length := by
        rw [hw2]
        simp
        omega
      have hp : 0 < w.length := by omega
      have hg0 : w.get ⟨0, hp⟩ = '\x1b' := rfl
      have hp1 : 0 + 1 < w.length := by omega
      have hg1 : w.get ⟨0 + 1, hp1⟩ = '[' := rfl
      rw [stepRes, dif_pos hp]
      simp only [hg0, reduceIte]
      rw [dif_pos hp1]
      simp only [hg1, reduceIte]
      have hrem02 : w.drop (0 + 2) = ps ++ (is_ ++ ([fb] ++ v)) := by
        simpa using hrem
      rw [hrem02, htw1.1, htw1.2]
      have hall1 : ¬ ((ps ++ (is_ ++ ([fb] ++ v))).all csi_parameter_byte = true) := by
        intro hall
        have := List.all_eq_true.1 hall fb (by simp)
        rw [final_not_param fb hfb] at this
        cases this
      have hall2 : ¬ ((is_ ++ ([fb] ++ v)).all csi_intermediate_byte = true) := by
        intro hall
        have := List.all_eq_true.1 hall fb (by simp)
        rw [final_not_inter fb hfb] at this
        cases this
      rw [if_neg hall1, if_neg hall2, htw2.1, htw2.2]
      simp only [List.singleton_append]
      rw [if_pos hfb, if_neg hm]
      simp only [flushEvs, gt_iff_lt, Nat.lt_irrefl, if_false, List.map_nil, List.nil_append]
      have hq : 0 + 2 + ps.length + is_.length + 1 = S.length := by
        simp [hS]
        omega
      rw [hq]
      simp
    have hrun : parseRaw w =
        ⟨(parseRaw v).evs.map (shiftEv S.length),
         (parseRaw v).leftover,
         (parseRaw v).csi.map (fun ab => (S.length + ab.1, S.length + ab.2)) |>.cons
           (0, S.length)⟩ := by
      rw [← runFrom_is_parseRaw w, runFrom_unfold]
      simp only
      rw [show stepRes (⟨w, 0, []⟩ : PositionedIterator).wrapped
            (⟨w, 0, []⟩ : PositionedIterator).pos1 0 false = stepRes w 0 0 false from rfl]
      rw [hstep]
      simp only [if_true]
      have hshift := runFrom_shift (mWeight v 0 false) S v 0 0 false [0] [] (le_refl _)
      simp only [Nat.add_zero] at hshift
      rw [hw]
      rw [hshift, runFrom_is_parseRaw v]
      simp
    rw [Parser.parse, Parser.parse]
    simp only [List.nil_append]
    rw [hrun]
    simp only
    congr 1
    rw [List.map_map]
    apply List.map_congr_left
    intro e _
    rw [Function.comp_apply, hw, eraseEv_shift]
  · decide

theorem C9_unsupported_csi_witness :
    Parser.parse [] ['\x1b', '[', '2', 'J', 'x'] = ([Event.text ['x']], []) := by
  have h := C9_unsupported_csi.1 ['2'] [] ['x'] 'J'
    (by decide) (by decide) (by decide) (by decide)
  have heq : (('\x1b' :: '[' :: ((['2'] : List Char) ++ [] ++ ['J'])) ++ ['x']) =
      ['\x1b', '[', '2', 'J', 'x'] := by decide
  rw [heq] at h
  rw [h]
  decide

theorem stepRes_inversion (w : List Char) (p : Nat) (ig : Bool) :
    (¬ p < w.length ∧ ∀ s, stepRes w p s ig = .exit [] []) ∨
    (∃ hp : p < w.length,
      (w.get ⟨p, hp⟩ = '\x07' ∧ ∀ s,
        stepRes w p s ig = .cont (flushEvs s p ++ [.bell]) [] (p + 1) (p + 1) ig false) ∨
      (w.get ⟨p, hp⟩ ≠ '\x07' ∧ w.get ⟨p, hp⟩ ≠ '\x1b' ∧ p + 1 = w.length ∧ ∀ s,
        stepRes w p s ig = .cont (flushEvs s (p + 1)) [] (p + 1) (p + 1) ig false) ∨
      (w.get ⟨p, hp⟩ ≠ '\x07' ∧ w.get ⟨p, hp⟩ ≠ '\x1b' ∧ p + 1 ≠ w.length ∧ ∀ s,
        stepRes w p s ig = .cont [] [] (p + 1) s ig false) ∨
      (w.get ⟨p, hp⟩ = '\x1b' ∧ ig = true ∧ p + 1 = w.length ∧ ∀ s,
        stepRes w p s ig = .cont (flushEvs s (p + 1)) [] (p + 1) (p + 1) false false) ∨
      (w.get ⟨p, hp⟩ = '\x1b' ∧ ig = true ∧ p + 1 ≠ w.length ∧ ∀ s,
        stepRes w p s ig = .cont [] [] (p + 1) s false false) ∨
      (w.get ⟨p, hp⟩ = '\x1b' ∧ ig = false ∧ ∀ s,
        stepRes w p s ig = .exit (flushEvs s p) (w.drop p)) ∨
      (w.get ⟨p, hp⟩ = '\x1b' ∧ ig = false ∧ ∀ s,
        stepRes w p s ig = .cont (flushEvs s p) [] p p true false) ∨
      (w.get ⟨p, hp⟩ = '\x1b' ∧ ig = false ∧
        ∃ fin rest3,
          ((w.drop (p + 2)).dropWhile csi_parameter_byte).dropWhile
            csi_intermediate_byte = fin :: rest3 ∧
          csi_final_byte fin = true ∧ ∀ s,
          stepRes w p s ig = .cont
            (flushEvs s p ++
              (if fin = 'm' then
                parse_sgr_sequence ((w.drop (p + 2)).takeWhile csi_parameter_byte)
               else []).map (fun x => PEvent.style x.1 x.2))
            [(p, p + 2 + ((w.drop (p + 2)).takeWhile csi_parameter_byte).length +
                (((w.drop (p + 2)).dropWhile csi_parameter_byte).takeWhile
                  csi_intermediate_byte).length + 1)]
            (p + 2 + ((w.drop (p + 2)).takeWhile csi_parameter_byte).length +
              (((w.drop (p + 2)).dropWhile csi_parameter_byte).takeWhile
                csi_intermediate_byte).length + 1)
            (p + 2 + ((w.drop (p + 2)).takeWhile csi_parameter_byte).length +
              (((w.drop (p + 2)).dropWhile csi_parameter_byte).takeWhile
                csi_intermediate_byte).length + 1)
            false true)) := by
  by_cases hp : p < w.length
  case neg =>
    left
    exact ⟨hp, fun s => by rw [stepRes, dif_neg hp]⟩
  case pos =>
  right
  refine ⟨hp, ?_⟩
  by_cases hbel : w.get ⟨p, hp⟩ = '\x07'
  · left
    exact ⟨hbel, fun s => by rw [stepRes, dif_pos hp]; simp only [hbel, reduceIte]⟩
  · by_cases hesc : w.get ⟨p, hp⟩ = '\x1b'
    case neg =>
      by_cases hend : p + 1 = w.length
      · right
        left
        refine ⟨hbel, hesc, hend, fun s => ?_⟩
        rw [stepRes, dif_pos hp]
        simp only
        rw [if_neg hbel, if_neg hesc, if_pos hend]
      · right
        right
        left
        refine ⟨hbel, hesc, hend, fun s => ?_⟩
        rw [stepRes, dif_pos hp]
        simp only
        rw [if_neg hbel, if_neg hesc, if_neg hend]
    case pos =>
      by_cases hig : ig
      · by_cases hend : p + 1 = w.length
        · right
          right
          right
          left
          refine ⟨hesc, hig, hend, fun s => ?_⟩
          rw [stepRes, dif_pos hp]
          simp only
          rw [if_neg hbel, if_pos hesc, if_pos hig, if_pos hend]
        · right
          right
          right
          right
          left
          refine ⟨hesc, hig, hend, fun s => ?_⟩
          rw [stepRes, dif_pos hp]
          simp only
          rw [if_neg hbel, if_pos hesc, if_pos hig, if_neg hend]
      · have hig2 : ig = false := by simpa using hig
        subst hig2
        by_cases hp1 : p + 1 < w.length
        case neg =>
          right
          right
          right
          right
          right
          left
          refine ⟨hesc, rfl, fun s => ?_⟩
          rw [stepRes, dif_pos hp]
          simp only
          rw [if_neg hbel, if_pos hesc, dif_neg hp1]
          simp
        case pos =>
          by_cases hbr : w.get ⟨p + 1, hp1⟩ = '['
          case neg =>
            right
            right
            right
            right
            right
            right
            left
            refine ⟨hesc, rfl, fun s => ?_⟩
            rw [stepRes, dif_pos hp]
            simp only
            rw [if_neg hbel, if_pos hesc, dif_pos hp1, if_neg hbr]
            simp [backtrack]
          case pos =>
            by_cases hall1 : ((w.drop (p + 2)).all csi_parameter_byte = true)
            · right
              right
              right
              right
              right
              left
              refine ⟨hesc, rfl, fun s => ?_⟩
              rw [stepRes, dif_pos hp]
              simp only
              rw [if_neg hbel, if_pos hesc, dif_pos hp1, if_pos hbr, if_pos hall1]
              simp
            · by_cases hall2 : (((w.drop (p + 2)).dropWhile csi_parameter_byte).all
                  csi_intermediate_byte = true)
              · right
                right
                right
                right
                right
                left
                refine ⟨hesc, rfl, fun s => ?_⟩
                rw [stepRes, dif_pos hp]
                simp only
                rw [if_neg hbel, if_pos hesc, dif_pos hp1, if_pos hbr,
                    if_neg hall1, if_pos hall2]
                simp
              · have hne : ((w.drop (p + 2)).dropWhile csi_parameter_byte).dropWhile
                    csi_intermediate_byte ≠ [] := by
                  intro hnil
                  exact hall2 (List.all_eq_true.2
                    (fun x hx => List.dropWhile_eq_nil_iff.1 hnil x hx))
                obtain ⟨fin, rest3, h3⟩ := List.exists_cons_of_ne_nil hne
                by_cases hfin : csi_final_byte fin
                · right
                  right
                  right
                  right
                  right
                  right
                  right
                  refine ⟨hesc, rfl, fin, rest3, h3, hfin, fun s => ?_⟩
                  rw [stepRes, dif_pos hp]
                  simp only
                  rw [if_neg hbel, if_pos hesc, dif_pos hp1, if_pos hbr,
                      if_neg hall1, if_neg hall2, h3]
                  simp only [hfin, reduceIte]
                  simp
                · right
                  right
                  right
                  right
                  right
                  right
                  left
                  refine ⟨hesc, rfl, fun s => ?_⟩
                  rw [stepRes, dif_pos hp]
                  simp only
                  rw [if_neg hbel, if_pos hesc, dif_pos hp1, if_pos hbr,
                      if_neg hall1, if_neg hall2, h3]
                  simp only [hfin, reduceIte]
                  rfl

theorem mem_flushEvs (a b s e : Nat) (h : PEvent.textR a b ∈ flushEvs s e) :
    a = s ∧ b = e ∧ s < e := by
  unfold flushEvs at h
  by_cases he : e > s
  · rw [if_pos he] at h
    simp at h
    exact ⟨h.1, h.2, he⟩
  · rw [if_neg he] at h
    cases h

theorem no_textR_in_styles (a b : Nat) (l : List SEv) :
    PEvent.textR a b ∈ l.map (fun x => PEvent.style x.1 x.2) → False := by
  intro h
  simp [List.mem_map] at h

theorem runFrom_safe :
    ∀ (m : Nat) (w : List Char) (p s : Nat) (ig : Bool) (ws : List Nat),
      mWeight w p ig ≤ m → p ≤ w.length → s ≤ p →
      (∀ i (hi : i < w.length), s ≤ i → i < p → w.get ⟨i, hi⟩ ≠ '\x07') →
      (∀ a b, PEvent.textR a b ∈ (runFrom ⟨w, p, ws⟩ s ig).evs →
        s ≤ a ∧ a < b ∧ b ≤ w.length ∧
        (∀ i (hi : i < w.length), a ≤ i → i < b → w.get ⟨i, hi⟩ ≠ '\x07')) ∧
      (∀ c d, (c, d) ∈ (runFrom ⟨w, p, ws⟩ s ig).csi → s ≤ c ∧ c ≤ d ∧ d ≤ w.length) ∧
      (∀ a b c d, PEvent.textR a b ∈ (runFrom ⟨w, p, ws⟩ s ig).evs →
        (c, d) ∈ (runFrom ⟨w, p, ws⟩ s ig).csi → b ≤ c ∨ d ≤ a) := by
  intro m
  induction m with
  | zero =>
      intro w p s ig ws hm
      exfalso
      simp only [mWeight] at hm
      by_cases hg : ig <;> simp [hg] at hm
  | succ m ih =>
      intro w p s ig ws hm hple hsp hreg
      rw [runFrom_unfold]
      simp only
      rcases stepRes_inversion w p ig with ⟨hnp, hsta⟩ | ⟨hp, hcase⟩
      · rw [hsta s]
        exact ⟨fun a b hmem => by simp at hmem,
               fun c d hmem => by simp at hmem,
               fun a b c d _ hmem => by simp at hmem⟩
      · rcases hcase with ⟨hbel, hst⟩ | ⟨hbel, hesc, hend, hst⟩ | ⟨hbel, hesc, hend, hst⟩ |
          ⟨hesc, hig, hend, hst⟩ | ⟨hesc, hig, hend, hst⟩ | ⟨hesc, hig, hst⟩ |
          ⟨hesc, hig, hst⟩ | ⟨hesc, hig, fin, rest3, h3, hfin, hst⟩
        · -- BEL
          obtain ⟨_, hp2le, _⟩ := stepRes_cont_bound _ _ _ _ _ _ _ _ _ _ (hst s)
          rw [hst s]
          simp only [Bool.false_eq_true, if_false]
          have hrec := ih w (p + 1) (p + 1) ig ws (by omega) (by omega) (le_refl _)
            (fun i hi h1 h2 => by omega)
          refine ⟨?_, ?_, ?_⟩
          · intro a b hmem
            rw [List.append_assoc, List.mem_append] at hmem
            rcases hmem with hmem | hmem
            · obtain ⟨ha, hb, hlt⟩ := mem_flushEvs a b s p hmem
              exact ⟨by omega, by omega, by omega,
                fun i hi h1 h2 => hreg i hi (by omega) (by omega)⟩
            · rcases List.mem_cons.1 hmem with hmem | hmem
              · cases hmem
              · obtain ⟨h1, h2, h3, h4⟩ := hrec.1 a b hmem
                exact ⟨by omega, h2, h3, h4⟩
          · intro c d hmem
            rw [List.nil_append] at hmem
            obtain ⟨h1, h2, h3⟩ := hrec.2.1 c d hmem
            exact ⟨by omega, h2, h3⟩
          · intro a b c d hta htc
            rw [List.nil_append] at htc
            rw [List.append_assoc, List.mem_append] at hta
            rcases hta with hta | hta
            · obtain ⟨ha, hb, _⟩ := mem_flushEvs a b s p hta
              obtain ⟨h1, _, _⟩ := hrec.2.1 c d htc
              left
              omega
            · rcases List.mem_cons.1 hta with hta | hta
              · cases hta
              · exact hrec.2.2 a b c d hta htc
        · -- ordinary character at end of input
          obtain ⟨_, hp2le, _⟩ := stepRes_cont_bound _ _ _ _ _ _ _ _ _ _ (hst s)
          rw [hst s]
          simp only [Bool.false_eq_true, if_false]
          have hrec := ih w (p + 1) (p + 1) ig ws (by omega) (by omega) (le_refl _)
            (fun i hi h1 h2 => by omega)
          have hpq : ∀ i (hi : i < w.length), s ≤ i → i < p + 1 →
              w.get ⟨i, hi⟩ ≠ '\x07' := by
            intro i hi h1 h2
            by_cases hip : i < p
            · exact hreg i hi h1 hip
            · have hieq : i = p := by omega
              subst hieq
              have hgg : w.get ⟨i, hi⟩ = w.get ⟨i, hp⟩ := rfl
              rw [hgg]
              exact hbel
          refine ⟨?_, ?_, ?_⟩
          · intro a b hmem
            rw [List.mem_append] at hmem
            rcases hmem with hmem | hmem
            · obtain ⟨ha, hb, hlt⟩ := mem_flushEvs a b s (p + 1) hmem
              exact ⟨by omega, by omega, by omega,
                fun i hi h1 h2 => hpq i hi (by omega) (by omega)⟩
            · obtain ⟨h1, h2, h3, h4⟩ := hrec.1 a b hmem
              exact ⟨by omega, h2, h3, h4⟩
          · intro c d hmem
            rw [List.nil_append] at hmem
            obtain ⟨h1, h2, h3⟩ := hrec.2.1 c d hmem
            exact ⟨by omega, h2, h3⟩
          · intro a b c d hta htc
            rw [List.nil_append] at htc
            rw [List.mem_append] at hta
            rcases hta with hta | hta
            · obtain ⟨ha, hb, _⟩ := mem_flushEvs a b s (p + 1) hta
              obtain ⟨h1, _, _⟩ := hrec.2.1 c d htc
              left
              omega
            · exact hrec.2.2 a b c d hta htc
        · -- ordinary character, middle of input
          obtain ⟨_, hp2le, _⟩ := stepRes_cont_bound _ _ _ _ _ _ _ _ _ _ (hst s)
          rw [hst s]
          simp only [Bool.false_eq_true, if_false]
          have hpq : ∀ i (hi : i < w.length), s ≤ i → i < p + 1 →
              w.get ⟨i, hi⟩ ≠ '\x07' := by
            intro i hi h1 h2
            by_cases hip : i < p
            · exact hreg i hi h1 hip
            · have hieq : i = p := by omega
              subst hieq
              have hgg : w.get ⟨i, hi⟩ = w.get ⟨i, hp⟩ := rfl
              rw [hgg]
              exact hbel
          have hrec := ih w (p + 1) s ig ws (by omega) (by omega) (by omega) hpq
          refine ⟨?_, ?_, ?_⟩
          · intro a b hmem
            rw [List.nil_append] at hmem
            exact hrec.1 a b hmem
          · intro c d hmem
            rw [List.nil_append] at hmem
            exact hrec.2.1 c d hmem
          · intro a b c d hta htc
            rw [List.nil_append] at hta htc
            exact hrec.2.2 a b c d hta htc
        · -- ESC with ignore flag, end of input
          obtain ⟨_, hp2le, _⟩ := stepRes_cont_bound _ _ _ _ _ _ _ _ _ _ (hst s)
          rw [hst s]
          simp only [Bool.false_eq_true, if_false]
          have hrec := ih w (p + 1) (p + 1) false ws (by omega) (by omega) (le_refl _)
            (fun i hi h1 h2 => by omega)
          have hpq : ∀ i (hi : i < w.length), s ≤ i → i < p + 1 →
              w.get ⟨i, hi⟩ ≠ '\x07' := by
            intro i hi h1 h2
            by_cases hip : i < p
            · exact hreg i hi h1 hip
            · have hieq : i = p := by omega
              subst hieq
              have hgg : w.get ⟨i, hi⟩ = w.get ⟨i, hp⟩ := rfl
              rw [hgg, hesc]
              decide
          refine ⟨?_, ?_, ?_⟩
          · intro a b hmem
            rw [List.mem_append] at hmem
            rcases hmem with hmem | hmem
            · obtain ⟨ha, hb, hlt⟩ := mem_flushEvs a b s (p + 1) hmem
              exact ⟨by omega, by omega, by omega,
                fun i hi h1 h2 => hpq i hi (by omega) (by omega)⟩
            · obtain ⟨h1, h2, h3, h4⟩ := hrec.1 a b hmem
              exact ⟨by omega, h2, h3, h4⟩
          · intro c d hmem
            rw [List.nil_append] at hmem
            obtain ⟨h1, h2, h3⟩ := hrec.2.1 c d hmem
            exact ⟨by omega, h2, h3⟩
          · intro a b c d hta htc
            rw [List.nil_append] at htc
            rw [List.mem_append] at hta
            rcases hta with hta | hta
            · obtain ⟨ha, hb, _⟩ := mem_flushEvs a b s (p + 1) hta
              obtain ⟨h1, _, _⟩ := hrec.2.1 c d htc
              left
              omega
            · exact hrec.2.2 a b c d hta htc
        · -- ESC with ignore flag, middle of input
          obtain ⟨_, hp2le, _⟩ := stepRes_cont_bound _ _ _ _ _ _ _ _ _ _ (hst s)
          rw [hst s]
          simp only [Bool.false_eq_true, if_false]
          have hpq : ∀ i (hi : i < w.length), s ≤ i → i < p + 1 →
              w.get ⟨i, hi⟩ ≠ '\x07' := by
            intro i hi h1 h2
            by_cases hip : i < p
            · exact hreg i hi h1 hip
            · have hieq : i = p := by omega
              subst hieq
              have hgg : w.get ⟨i, hi⟩ = w.get ⟨i, hp⟩ := rfl
              rw [hgg, hesc]
              decide
          have hrec := ih w (p + 1) s false ws (by omega) (by omega) (by omega) hpq
          refine ⟨?_, ?_, ?_⟩
          · intro a b hmem
            rw [List.nil_append] at hmem
            exact hrec.1 a b hmem
          · intro c d hmem
            rw [List.nil_append] at hmem
            exact hrec.2.1 c d hmem
          · intro a b c d hta htc
            rw [List.nil_append] at hta htc
            exact hrec.2.2 a b c d hta htc
        · -- exhaustion inside the escape attempt
          rw [hst]
          refine ⟨?_, ?_, ?_⟩
          · intro a b hmem
            obtain ⟨ha, hb, hlt⟩ := mem_flushEvs a b s p hmem
            exact ⟨by omega, by omega, by omega,
              fun i hi h1 h2 => hreg i hi (by omega) (by omega)⟩
          · intro c d hmem
            simp at hmem
          · intro a b c d _ hmem
            simp at hmem
        · -- invalid escape: backtrack with ignore flag
          obtain ⟨_, hp2le, _⟩ := stepRes_cont_bound _ _ _ _ _ _ _ _ _ _ (hst s)
          rw [hst s]
          simp only [Bool.false_eq_true, if_false]
          have hrec := ih w p p true ws (by omega) (by omega) (le_refl _)
            (fun i hi h1 h2 => by omega)
          refine ⟨?_, ?_, ?_⟩
          · intro a b hmem
            rw [List.mem_append] at hmem
            rcases hmem with hmem | hmem
            · obtain ⟨ha, hb, hlt⟩ := mem_flushEvs a b s p hmem
              exact ⟨by omega, by omega, by omega,
                fun i hi h1 h2 => hreg i hi (by omega) (by omega)⟩
            · obtain ⟨h1, h2, h3, h4⟩ := hrec.1 a b hmem
              exact ⟨by omega, h2, h3, h4⟩
          · intro c d hmem
            rw [List.nil_append] at hmem
            obtain ⟨h1, h2, h3⟩ := hrec.2.1 c d hmem
            exact ⟨by omega, h2, h3⟩
          · intro a b c d hta htc
            rw [List.nil_append] at htc
            rw [List.mem_append] at hta
            rcases hta with hta | hta
            · obtain ⟨ha, hb, _⟩ := mem_flushEvs a b s p hta
              obtain ⟨h1, _, _⟩ := hrec.2.1 c d htc
              left
              omega
            · exact hrec.2.2 a b c d hta htc
        · -- recognized CSI sequence
          obtain ⟨_, hp2le, _⟩ := stepRes_cont_bound _ _ _ _ _ _ _ _ _ _ (hst s)
          rw [hst s]
          simp only [reduceIte]
          have hrec := ih w
            (p + 2 + ((w.drop (p + 2)).takeWhile csi_parameter_byte).length +
              (((w.drop (p + 2)).dropWhile csi_parameter_byte).takeWhile
                csi_intermediate_byte).length + 1)
            (p + 2 + ((w.drop (p + 2)).takeWhile csi_parameter_byte).length +
              (((w.drop (p + 2)).dropWhile csi_parameter_byte).takeWhile
                csi_intermediate_byte).length + 1)
            false (p :: ws) (by omega) (by omega) (le_refl _)
            (fun i hi h1 h2 => by omega)
          refine ⟨?_, ?_, ?_⟩
          · intro a b hmem
            rw [List.mem_append] at hmem
            rcases hmem with hmem | hmem
            · rw [List.mem_append] at hmem
              rcases hmem with hmem | hmem
              · obtain ⟨ha, hb, hlt⟩ := mem_flushEvs a b s p hmem
                exact ⟨by omega, by omega, by omega,
                  fun i hi h1 h2 => hreg i hi (by omega) (by omega)⟩
              · exact absurd hmem (no_textR_in_styles a b _)
            · obtain ⟨h1, h2, h3, h4⟩ := hrec.1 a b hmem
              exact ⟨by omega, h2, h3, h4⟩
          · intro c d hmem
            rw [List.cons_append, List.nil_append] at hmem
            rcases List.mem_cons.1 hmem with hmem | hmem
            · cases hmem
              exact ⟨by omega, by omega, by omega⟩
            · obtain ⟨h1, h2, h3⟩ := hrec.2.1 c d hmem
              exact ⟨by omega, h2, h3⟩
          · intro a b c d hta htc
            rw [List.cons_append, List.nil_append] at htc
            rw [List.mem_append] at hta
            rcases hta with hta | hta
            · rw [List.mem_append] at hta
              rcases hta with hta | hta
              · obtain ⟨ha, hb, _⟩ := mem_flushEvs a b s p hta
                rcases List.mem_cons.1 htc with htc | htc
                · cases htc
                  left
                  omega
                · obtain ⟨h1, _, _⟩ := hrec.2.1 c d htc
                  left
                  omega
              · exact absurd hta (no_textR_in_styles a b _)
            · obtain ⟨h1, h2, h3, _⟩ := hrec.1 a b hta
              rcases List.mem_cons.1 htc with htc | htc
              · cases htc
                right
                omega
              · exact hrec.2.2 a b c d hta htc

theorem mem_pySlice (w : List Char) (a b : Nat) (c : Char) (h : c ∈ pySlice w a b) :
    ∃ i, ∃ hi : i < w.length, a ≤ i ∧ i < b ∧ w.get ⟨i, hi⟩ = c := by
  unfold pySlice at h
  obtain ⟨n, hn, hgn⟩ := List.getElem_of_mem h
  have hn2 : n < b - a := by
    have := List.length_take_le (b - a) (w.drop a)
    omega
  have hn3 : n < (w.drop a).length := by
    have h1 : ((w.drop a).take (b - a)).length = min (b - a) (w.drop a).length :=
      List.length_take _ _
    omega
  have hn4 : a + n < w.length := by
    have : (w.drop a).length = w.length - a := List.length_drop _ _
    omega
  refine ⟨a + n, hn4, by omega, by omega, ?_⟩
  rw [← hgn]
  rw [List.getElem_take, List.getElem_drop]
  rfl

theorem pySlice_ne_nil (w : List Char) (a b : Nat) (ha : a < b) (hb : b ≤ w.length) :
    pySlice w a b ≠ [] := by
  unfold pySlice
  intro hnil
  have h1 : ((w.drop a).take (b - a)).length = min (b - a) (w.drop a).length :=
    List.length_take _ _
  have h2 : (w.drop a).length = w.length - a := List.length_drop _ _
  rw [hnil] at h1
  simp at h1
  omega

theorem parse_text_origin (lft input : List Char) (s : List Char)
    (h : Event.text s ∈ (Parser.parse lft input).1) :
    ∃ a b, PEvent.textR a b ∈ (parseRaw (lft ++ input)).evs ∧
      s = pySlice (lft ++ input) a b := by
  unfold Parser.parse at h
  simp only [List.mem_map] at h
  obtain ⟨pe, hpe, herase⟩ := h
  rcases pe with ⟨a, b⟩ | _ | ⟨c, v⟩
  · refine ⟨a, b, hpe, ?_⟩
    have : eraseEv (lft ++ input) (PEvent.textR a b) = Event.text (pySlice (lft ++ input) a b) := rfl
    rw [this] at herase
    cases herase
    rfl
  · cases herase
  · cases herase

/-- C10: every TEXT event yielded by Parser.parse has a non-empty string
payload: a flush whose pending slice is empty produces no TEXT event. -/
theorem C10_no_empty_text (lft input : List Char) (s : List Char)
    (h : Event.text s ∈ (Parser.parse lft input).1) : s ≠ [] := by
  obtain ⟨a, b, hmem, hs⟩ := parse_text_origin lft input s h
  have hsafe := runFrom_safe (mWeight (lft ++ input) 0 false) (lft ++ input) 0 0 false []
    (le_refl _) (by omega) (le_refl _) (fun i hi h1 h2 => by omega)
  rw [runFrom_is_parseRaw] at hsafe
  obtain ⟨_, hab, hble, _⟩ := hsafe.1 a b hmem
  rw [hs]
  exact pySlice_ne_nil _ a b hab hble

/-- Witness for C10_no_empty_text at a concrete input. -/
theorem C10_no_empty_text_witness :
    Event.text ['h', 'i'] ∈ (Parser.parse [] ['h', 'i']).1 ∧ (['h', 'i'] : List Char) ≠ [] :=
  ⟨by decide, C10_no_empty_text [] ['h', 'i'] ['h', 'i'] (by decide)⟩

/-- C1 counterexample: an invalid escape attempt is rendered verbatim, so
the ESC character does appear inside a TEXT payload: parse("\x1bX") yields
[Text("\x1bX")]. -/
theorem C1_counterexample :
    '\x1b' ∈ concatTexts (Parser.parse [] ['\x1b', 'X']).1 := by
  decide

/-- C1 (amended): over any sequence of chunks, the concatenation of all
TEXT payloads contains no BEL character, and within each call every TEXT
slice is disjoint from every recognized CSI sequence (so no character of a
recognized CSI sequence appears in a TEXT payload); an ESC character may
appear in TEXT payloads, but only as part of an invalid escape attempt
rendered verbatim. -/
theorem C1_text_safety :
    (∀ (lft input : List Char) (s : List Char),
      Event.text s ∈ (Parser.parse lft input).1 → '\x07' ∉ s) ∧
    (∀ (lft input : List Char) (a b c d : Nat),
      PEvent.textR a b ∈ (parseRaw (lft ++ input)).evs →
      (c, d) ∈ (parseRaw (lft ++ input)).csi → b ≤ c ∨ d ≤ a) ∧
    (∀ (chunks : List (List Char)) (s : List Char),
      Event.text s ∈ (runChunks [] chunks).1 → '\x07' ∉ s) := by
  have hcall : ∀ (lft input : List Char) (s : List Char),
      Event.text s ∈ (Parser.parse lft input).1 → '\x07' ∉ s := by
    intro lft input s h hbelmem
    obtain ⟨a, b, hmem, hs⟩ := parse_text_origin lft input s h
    have hsafe := runFrom_safe (mWeight (lft ++ input) 0 false) (lft ++ input) 0 0 false []
      (le_refl _) (by omega) (le_refl _) (fun i hi h1 h2 => by omega)
    rw [runFrom_is_parseRaw] at hsafe
    obtain ⟨_, _, _, hfree⟩ := hsafe.1 a b hmem
    rw [hs] at hbelmem
    obtain ⟨i, hi, h1, h2, hgi⟩ := mem_pySlice _ a b _ hbelmem
    exact hfree i hi h1 h2 hgi
  refine ⟨hcall, ?_, ?_⟩
  · intro lft input a b c d hta htc
    have hsafe := runFrom_safe (mWeight (lft ++ input) 0 false) (lft ++ input) 0 0 false []
      (le_refl _) (by omega) (le_refl _) (fun i hi h1 h2 => by omega)
    rw [runFrom_is_parseRaw] at hsafe
    exact hsafe.2.2 a b c d hta htc
  · intro chunks
    suffices hgen : ∀ (cs : List (List Char)) (lft : List Char) (s : List Char),
        Event.text s ∈ (runChunks lft cs).1 → '\x07' ∉ s by
      intro s h
      exact hgen chunks [] s h
    intro cs
    induction cs with
    | nil =>
        intro lft s h
        simp [runChunks] at h
    | cons c cs ihc =>
        intro lft s h
        rw [runChunks] at h
        simp only [List.mem_append] at h
        rcases h with h | h
        · exact hcall lft c s h
        · exact ihc _ s h

/-- Witness for C1_text_safety at concrete inputs. -/
theorem C1_text_safety_witness :
    Event.text ['a'] ∈ (Parser.parse [] ['a', '\x07', 'b']).1 ∧
    ('\x07' ∉ (['a'] : List Char)) ∧
    PEvent.textR 4 6 ∈ (parseRaw ([] ++ ['\x1b', '[', '2', 'J', 'o', 'k'])).evs ∧
    (0, 4) ∈ (parseRaw ([] ++ ['\x1b', '[', '2', 'J', 'o', 'k'])).csi ∧
    (6 ≤ 0 ∨ 4 ≤ 4) := by
  refine ⟨by decide, C1_text_safety.1 [] ['a', '\x07', 'b'] ['a'] (by decide),
          by decide, by decide, ?_⟩
  exact C1_text_safety.2.1 [] ['\x1b', '[', '2', 'J', 'o', 'k'] 4 6 0 4
    (by decide) (by decide)

theorem get_append_left (u v : List Char) (p : Nat) (hp : p < u.length)
    (h : p < (u ++ v).length) :
    (u ++ v).get ⟨p, h⟩ = u.get ⟨p, hp⟩ := by
  simp only [List.get_eq_getElem]
  exact List.getElem_append_left hp

theorem dropWhile_all_left (f : Char → Bool) :
    ∀ (a b : List Char), (∀ x ∈ a, f x = true) →
      (a ++ b).dropWhile f = b.dropWhile f := by
  intro a
  induction a with
  | nil => intro b _; rfl
  | cons x a iha =>
      intro b ha
      rw [List.cons_append, List.dropWhile_cons,
          if_pos (ha x (List.mem_cons_self x a))]
      exact iha b (fun z hz => ha z (List.mem_cons_of_mem x hz))

theorem all_dropWhile_of_all (f g : Char → Bool) (l : List Char)
    (h : l.all f = true) : (l.dropWhile g).all f = true := by
  apply List.all_eq_true.2
  intro x hx
  exact List.all_eq_true.1 h x ((List.dropWhile_sublist g).subset hx)

theorem incompleteEsc_step (w : List Char) (p s : Nat) (hp : p < w.length)
    (hinc : incompleteEsc (w.drop p)) :
    stepRes w p s false = .exit (flushEvs s p) (w.drop p) := by
  rcases hinc with hone | ⟨ps, is_, heq, hps, his⟩
  · -- lone ESC at end of input
    obtain ⟨hplt, hgp⟩ := drop_cons_getElem w p '\x1b' [] hone
    have hlen : w.length = p + 1 := by
      have := congrArg List.length hone
      simp at this
      omega
    rw [stepRes, dif_pos hp]
    simp only [hgp, reduceIte]
    rw [dif_neg (by omega)]
    simp [hone]
  · -- ESC '[' followed only by parameter and intermediate bytes
    obtain ⟨hplt, hgp⟩ := drop_cons_getElem w p '\x1b' ('[' :: (ps ++ is_)) heq
    have hdrop1 : w.drop (p + 1) = '[' :: (ps ++ is_) := by
      rw [List.drop_eq_getElem_cons hp] at heq
      have := (List.cons.injEq _ _ _ _ ▸ heq).2
      exact this
    obtain ⟨hp1lt, hgp1⟩ := drop_cons_getElem w (p + 1) '[' (ps ++ is_) hdrop1
    have hdrop2 : w.drop (p + 2) = ps ++ is_ := by
      rw [List.drop_eq_getElem_cons hp1lt] at hdrop1
      have := (List.cons.injEq _ _ _ _ ▸ hdrop1).2
      simpa using this
    rw [stepRes, dif_pos hp]
    simp only [hgp, reduceIte]
    rw [dif_pos hp1lt]
    simp only [hgp1, reduceIte, hdrop2]
    by_cases hall1 : ((ps ++ is_).all csi_parameter_byte = true)
    · rw [if_pos hall1]
      rw [heq]
      simp
    · rw [if_neg hall1]
      have hall2 : ((ps ++ is_).dropWhile csi_parameter_byte).all
          csi_intermediate_byte = true := by
        rw [dropWhile_all_left csi_parameter_byte ps is_
          (fun x hx => List.all_eq_true.1 hps x hx)]
        exact all_dropWhile_of_all _ _ _ his
      rw [if_pos hall2]
      rw [heq]
      simp

theorem incompleteEsc_ne_nil (v : List Char) (h : incompleteEsc v) : v ≠ [] := by
  rcases h with h | ⟨ps, is_, h, _, _⟩ <;> rw [h] <;> simp

theorem incompleteEsc_run (v : List Char) (ws : List Nat) (h : incompleteEsc v) :
    runFrom ⟨v, 0, ws⟩ 0 false = ⟨[], v, []⟩ := by
  have hne := incompleteEsc_ne_nil v h
  have hlen : 0 < v.length := List.length_pos.2 hne
  rw [runFrom_unfold]
  simp only
  have hstep := incompleteEsc_step v 0 0 hlen (by simpa using h)
  rw [hstep]
  simp [flushEvs]

theorem runFrom_escfree :
    ∀ (m : Nat) (u v : List Char) (p s : Nat) (ws ws' : List Nat),
      mWeight (u ++ v) p false ≤ m →
      (∀ c ∈ u, c ≠ '\x1b') → incompleteEsc v →
      p ≤ u.length → s ≤ p → (s = p ∨ p < u.length) →
      runFrom ⟨u ++ v, p, ws⟩ s false =
        ⟨(runFrom ⟨u, p, ws'⟩ s false).evs, v, []⟩ := by
  intro m
  induction m with
  | zero =>
      intro u v p s ws ws' hm
      exfalso
      simp only [mWeight] at hm
      simp at hm
  | succ m ih =>
      intro u v p s ws ws' hm hfree hinc hpu hsp hinv
      have hv1 : 1 ≤ v.length := by
        have := incompleteEsc_ne_nil v hinc
        cases v
        · exact absurd rfl this
        · simp
      have hlenuv : (u ++ v).length = u.length + v.length := by simp
      by_cases hpe : p = u.length
      case pos =>
        have hs : s = p := by omega
        subst hs
        subst hpe
        have hplt : u.length < (u ++ v).length := by omega
        have hdropv : (u ++ v).drop u.length = v := List.drop_left u v
        rw [runFrom_unfold]
        simp only
        rw [show stepRes (⟨u ++ v, u.length, ws⟩ : PositionedIterator).wrapped
            (⟨u ++ v, u.length, ws⟩ : PositionedIterator).pos1 u.length false =
            stepRes (u ++ v) u.length u.length false from rfl]
        rw [incompleteEsc_step (u ++ v) u.length u.length hplt (by rw [hdropv]; exact hinc)]
        simp only [hdropv, flushEvs, Nat.lt_irrefl, gt_iff_lt, if_false]
        rw [runFrom_unfold]
        simp only
        rcases stepRes_inversion u u.length false with ⟨_, hst⟩ | ⟨hplt2, _⟩
        · rw [hst u.length]
        · omega
      case neg =>
        have hplt : p < u.length := by omega
        have hpltuv : p < (u ++ v).length := by omega
        have hchar : (u ++ v).get ⟨p, hpltuv⟩ = u.get ⟨p, hplt⟩ :=
          get_append_left u v p hplt hpltuv
        have hne : u.get ⟨p, hplt⟩ ≠ '\x1b' :=
          hfree _ (List.get_mem u p hplt)
        by_cases hbel : u.get ⟨p, hplt⟩ = '\x07'
        · -- BEL inside u
          have hstL : stepRes (u ++ v) p s false =
              .cont (flushEvs s p ++ [.bell]) [] (p + 1) (p + 1) false false := by
            rw [stepRes, dif_pos hpltuv]
            simp only [hchar, hbel, reduceIte]
          have hstR : stepRes u p s false =
              .cont (flushEvs s p ++ [.bell]) [] (p + 1) (p + 1) false false := by
            rw [stepRes, dif_pos hplt]
            simp only [hbel, reduceIte]
          rw [runFrom_unfold]
          simp only
          rw [hstL]
          simp only [Bool.false_eq_true, if_false]
          conv_rhs => rw [runFrom_unfold]
          simp only
          rw [hstR]
          simp only [Bool.false_eq_true, if_false]
          obtain ⟨_, _, hmlt⟩ := stepRes_cont_bound _ _ _ _ _ _ _ _ _ _ hstL
          rw [ih u v (p + 1) (p + 1) ws ws' (by omega) hfree hinc (by omega)
            (le_refl _) (Or.inl rfl)]
          simp
        · -- ordinary character inside u
          by_cases hend : p + 1 = u.length
          · -- last character of u: the run over u flushes here, the run
            -- over u ++ v flushes at the ESC of v instead
            have hstL : stepRes (u ++ v) p s false =
                .cont [] [] (p + 1) s false false := by
              rw [stepRes, dif_pos hpltuv]
              simp only [hchar, reduceIte]
              rw [if_neg hbel, if_neg hne, if_neg (by omega)]
            have hstR : stepRes u p s false =
                .cont (flushEvs s (p + 1)) [] (p + 1) (p + 1) false false := by
              rw [stepRes, dif_pos hplt]
              simp only [reduceIte]
              rw [if_neg hbel, if_neg hne, if_pos hend]
            rw [runFrom_unfold]
            simp only
            rw [hstL]
            simp only [Bool.false_eq_true, if_false]
            conv_rhs => rw [runFrom_unfold]
            simp only
            rw [hstR]
            simp only [Bool.false_eq_true, if_false]
            -- left continuation: at the ESC, exit with the pending flush
            rw [runFrom_unfold]
            simp only
            have hdropv : (u ++ v).drop (p + 1) = v := by
              rw [hend]
              exact List.drop_left u v
            have hplt1 : p + 1 < (u ++ v).length := by omega
            rw [show stepRes (⟨u ++ v, p + 1, ws⟩ : PositionedIterator).wrapped
                (⟨u ++ v, p + 1, ws⟩ : PositionedIterator).pos1 s false =
                stepRes (u ++ v) (p + 1) s false from rfl]
            rw [incompleteEsc_step (u ++ v) (p + 1) s hplt1 (by rw [hdropv]; exact hinc)]
            simp only [hdropv]
            -- right continuation: iterator exhausted
            conv_rhs => rw [runFrom_unfold]
            simp only
            rcases stepRes_inversion u (p + 1) false with ⟨_, hst⟩ | ⟨hplt2, _⟩
            · rw [hst (p + 1)]
              simp [hend]
            · omega
          · -- middle of u: both runs take the same silent step
            have hstL : stepRes (u ++ v) p s false =
                .cont [] [] (p + 1) s false false := by
              rw [stepRes, dif_pos hpltuv]
              simp only [hchar, reduceIte]
              rw [if_neg hbel, if_neg hne, if_neg (by omega)]
            have hstR : stepRes u p s false =
                .cont [] [] (p + 1) s false false := by
              rw [stepRes, dif_pos hplt]
              simp only [reduceIte]
              rw [if_neg hbel, if_neg hne, if_neg hend]
            rw [runFrom_unfold]
            simp only
            rw [hstL]
            simp only [Bool.false_eq_true, if_false]
            conv_rhs => rw [runFrom_unfold]
            simp only
            rw [hstR]
            simp only [Bool.false_eq_true, if_false]
            obtain ⟨_, _, hmlt⟩ := stepRes_cont_bound _ _ _ _ _ _ _ _ _ _ hstL
            rw [ih u v (p + 1) s ws ws' (by omega) hfree hinc (by omega)
              (by omega) (Or.inr (by omega))]
            simp

theorem pySlice_append_left (u v : List Char) (a b : Nat) (hb : b ≤ u.length) :
    pySlice (u ++ v) a b = pySlice u a b := by
  unfold pySlice
  by_cases ha : a ≤ u.length
  · rw [List.drop_append_of_le_length ha]
    rw [List.take_append_of_le_length]
    rw [List.length_drop]
    omega
  · have hba : b - a = 0 := by omega
    rw [hba]
    rfl

/-- C6: a parse call whose chunk ends in the middle of an escape sequence
is not an error: the entire unparsed remainder starting at the ESC is
saved verbatim as leftover, no event is emitted for the partial sequence,
and the call returns exactly the events of the ESC-free text before it; in
particular parse("\x1b[1") yields no event and leaves "\x1b[1" as
leftover, after which parse("m") yields exactly [StyleChange(WEIGHT,
BOLD)]. -/
theorem C6_incomplete_escape :
    (∀ u v : List Char, (∀ c ∈ u, c ≠ '\x1b') → incompleteEsc v →
      Parser.parse [] (u ++ v) = ((Parser.parse [] u).1, v)) ∧
    Parser.parse [] ['\x1b', '[', '1'] = ([], ['\x1b', '[', '1']) ∧
    Parser.parse ['\x1b', '[', '1'] ['m'] =
      ([.styleChange .WEIGHT (.vWeight .BOLD)], []) := by
  refine ⟨?_, by decide, by decide⟩
  intro u v hfree hinc
  have h := runFrom_escfree (mWeight (u ++ v) 0 false) u v 0 0 [] [] (le_refl _)
    hfree hinc (by omega) (le_refl _) (Or.inl rfl)
  have hsafe := runFrom_safe (mWeight u 0 false) u 0 0 false []
    (le_refl _) (by omega) (le_refl _) (fun i hi h1 h2 => by omega)
  unfold Parser.parse
  simp only [List.nil_append]
  rw [← runFrom_is_parseRaw (u ++ v), h]
  simp only
  rw [← runFrom_is_parseRaw u]
  congr 1
  apply List.map_congr_left
  intro e hmem
  rcases e with ⟨a, b⟩ | _ | ⟨c, vv⟩
  · obtain ⟨_, _, hble, _⟩ := hsafe.1 a b hmem
    simp only [eraseEv]
    rw [pySlice_append_left u v a b hble]
  · rfl
  · rfl

/-- Witness for C6_incomplete_escape: a chunk of plain text followed by an
unfinished CSI introducer. -/
theorem C6_incomplete_escape_witness :
    Parser.parse [] (['a'] ++ ['\x1b', '[']) = ((Parser.parse [] ['a']).1, ['\x1b', '[']) :=
  C6_incomplete_escape.1 ['a'] ['\x1b', '[']
    (by decide) (Or.inr ⟨[], [], rfl, rfl, rfl⟩)

/-! ### Coalescing adjacent TEXT events, and slice algebra for flushes -/

theorem map_eraseEv_flushEvs (w : List Char) (s e : Nat) :
    (flushEvs s e).map (eraseEv w) = txt w s e := by
  unfold flushEvs txt
  by_cases h : e > s
  · rw [if_pos h, if_pos h]
    rfl
  · rw [if_neg h, if_neg h]
    rfl

theorem txt_shift (u v : List Char) (a b : Nat) :
    txt (u ++ v) (u.length + a) (u.length + b) = txt v a b := by
  unfold txt
  by_cases h : a < b
  · rw [if_pos (by omega), if_pos h, pySlice_shift]
  · rw [if_neg (by omega), if_neg h]

theorem txt_append_left (u v : List Char) (a b : Nat) (hb : b ≤ u.length) :
    txt (u ++ v) a b = txt u a b := by
  unfold txt
  by_cases h : a < b
  · rw [if_pos h, if_pos h, pySlice_append_left u v a b hb]
  · rw [if_neg h, if_neg h]

theorem pySlice_split (w : List Char) (a b c : Nat) (hab : a ≤ b) (hbc : b ≤ c) :
    pySlice w a c = pySlice w a b ++ pySlice w b c := by
  unfold pySlice
  have h1 : c - a = (b - a) + (c - b) := by omega
  have h2 : a + (b - a) = b := by omega
  rw [h1, List.take_add, List.drop_drop, h2]

theorem coalesce_cons_text (s : List Char) (L : List Event) :
    coalesce (.text s :: L) =
      match coalesce L with
      | .text t :: r2 => .text (s ++ t) :: r2
      | r2 => .text s :: r2 := rfl

theorem coalesce_cons_bell (L : List Event) :
    coalesce (.bell :: L) = .bell :: coalesce L := rfl

theorem coalesce_cons_style (c : TextStyleChange) (v : StyleVal) (L : List Event) :
    coalesce (.styleChange c v :: L) = .styleChange c v :: coalesce L := rfl

theorem coalesce_text_text (a b : List Char) (X : List Event) :
    coalesce (.text a :: .text b :: X) = coalesce (.text (a ++ b) :: X) := by
  simp only [coalesce]
  rcases h : coalesce X with _ | ⟨e, r2⟩
  · simp
  · rcases e with t | _ | ⟨c, v⟩
    · simp [List.append_assoc]
    · simp
    · simp

theorem coalesce_append_congr (A B C : List Event) (h : coalesce B = coalesce C) :
    coalesce (A ++ B) = coalesce (A ++ C) := by
  induction A with
  | nil => simpa using h
  | cons e A ih =>
      rcases e with s | _ | ⟨c, v⟩
      · rw [List.cons_append, List.cons_append, coalesce_cons_text,
            coalesce_cons_text, ih]
      · rw [List.cons_append, List.cons_append, coalesce_cons_bell,
            coalesce_cons_bell, ih]
      · rw [List.cons_append, List.cons_append, coalesce_cons_style,
            coalesce_cons_style, ih]

theorem coalesce_flush (w : List Char) (s k e : Nat) (hsk : s ≤ k) (hke : k ≤ e)
    (X : List Event) :
    coalesce (txt w s k ++ (txt w k e ++ X)) = coalesce (txt w s e ++ X) := by
  unfold txt
  by_cases h1 : s < k
  · rw [if_pos h1]
    by_cases h2 : k < e
    · rw [if_pos h2, if_pos (by omega)]
      simp only [List.cons_append, List.nil_append, List.singleton_append]
      rw [coalesce_text_text, ← pySlice_split w s k e hsk hke]
    · have he : e = k := by omega
      subst he
      rw [if_neg h2, if_pos h1]
      simp
  · have hs : s = k := by omega
    subst hs
    rw [if_neg h1]
    by_cases h2 : s < e
    · rw [if_pos h2]
      simp
    · rw [if_neg h2]
      simp

theorem map_eraseEv_shift (u v : List Char) (l : List PEvent) :
    (l.map (shiftEv u.length)).map (eraseEv (u ++ v)) = l.map (eraseEv v) := by
  rw [List.map_map]
  exact List.map_congr_left (fun e _ => eraseEv_shift u v e)

theorem map_eraseEv_styles (w : List Char) (l : List SEv) :
    (l.map (fun x => PEvent.style x.1 x.2)).map (eraseEv w) =
      l.map (fun x => Event.styleChange x.1 x.2) := by
  rw [List.map_map]
  rfl

theorem dropWhile_ne_nil_append (f : Char → Bool) (x b : List Char)
    (h : x.dropWhile f ≠ []) :
    (x ++ b).takeWhile f = x.takeWhile f ∧
    (x ++ b).dropWhile f = x.dropWhile f ++ b := by
  obtain ⟨z, zs, hz⟩ := List.exists_cons_of_ne_nil h
  have hzf : f z = false := dropWhile_head_false f x z zs hz
  have hx := List.takeWhile_append_dropWhile (p := f) (l := x)
  have h1 : ∀ c ∈ x.takeWhile f, f c = true := fun c hc => List.mem_takeWhile_imp hc
  have h2 : ∀ y ys, x.dropWhile f ++ b = y :: ys → f y = false := by
    intro y ys heq
    rw [hz] at heq
    simp only [List.cons_append] at heq
    injection heq with hy hys
    exact hy ▸ hzf
  have key := takeWhile_all_append f (x.takeWhile f) (x.dropWhile f ++ b) h1 h2
  have hfull : x.takeWhile f ++ (x.dropWhile f ++ b) = x ++ b := by
    rw [← List.append_assoc, hx]
  constructor
  · rw [← hfull]
    exact key.1
  · rw [← hfull]
    exact key.2

/-! ### Direct computations of one loop step from branch conditions -/

theorem stepRes_of_bel (w : List Char) (p : Nat) (hp : p < w.length)
    (hbel : w.get ⟨p, hp⟩ = '\x07') (s : Nat) (ig : Bool) :
    stepRes w p s ig = .cont (flushEvs s p ++ [.bell]) [] (p + 1) (p + 1) ig false := by
  rw [stepRes, dif_pos hp]
  simp only [hbel, reduceIte]

theorem stepRes_of_normal_end (w : List Char) (p : Nat) (hp : p < w.length)
    (hbel : w.get ⟨p, hp⟩ ≠ '\x07') (hesc : w.get ⟨p, hp⟩ ≠ '\x1b')
    (hend : p + 1 = w.length) (s : Nat) (ig : Bool) :
    stepRes w p s ig = .cont (flushEvs s (p + 1)) [] (p + 1) (p + 1) ig false := by
  rw [stepRes, dif_pos hp]
  simp only
  rw [if_neg hbel, if_neg hesc, if_pos hend]

theorem stepRes_of_normal_mid (w : List Char) (p : Nat) (hp : p < w.length)
    (hbel : w.get ⟨p, hp⟩ ≠ '\x07') (hesc : w.get ⟨p, hp⟩ ≠ '\x1b')
    (hend : p + 1 ≠ w.length) (s : Nat) (ig : Bool) :
    stepRes w p s ig = .cont [] [] (p + 1) s ig false := by
  rw [stepRes, dif_pos hp]
  simp only
  rw [if_neg hbel, if_neg hesc, if_neg hend]

theorem stepRes_of_ig_end (w : List Char) (p : Nat) (hp : p < w.length)
    (hesc : w.get ⟨p, hp⟩ = '\x1b') (ig : Bool) (hig : ig = true)
    (hend : p + 1 = w.length) (s : Nat) :
    stepRes w p s ig = .cont (flushEvs s (p + 1)) [] (p + 1) (p + 1) false false := by
  have hbel : w.get ⟨p, hp⟩ ≠ '\x07' := by rw [hesc]; decide
  rw [stepRes, dif_pos hp]
  simp only
  rw [if_neg hbel, if_pos hesc, if_pos hig, if_pos hend]

theorem stepRes_of_ig_mid (w : List Char) (p : Nat) (hp : p < w.length)
    (hesc : w.get ⟨p, hp⟩ = '\x1b') (ig : Bool) (hig : ig = true)
    (hend : p + 1 ≠ w.length) (s : Nat) :
    stepRes w p s ig = .cont [] [] (p + 1) s false false := by
  have hbel : w.get ⟨p, hp⟩ ≠ '\x07' := by rw [hesc]; decide
  rw [stepRes, dif_pos hp]
  simp only
  rw [if_neg hbel, if_pos hesc, if_pos hig, if_neg hend]

theorem stepRes_of_esc_short (w : List Char) (p : Nat) (hp : p < w.length)
    (hesc : w.get ⟨p, hp⟩ = '\x1b') (hnp1 : ¬ p + 1 < w.length) (s : Nat) :
    stepRes w p s false = .exit (flushEvs s p) (w.drop p) := by
  have hbel : w.get ⟨p, hp⟩ ≠ '\x07' := by rw [hesc]; decide
  rw [stepRes, dif_pos hp]
  simp only
  rw [if_neg hbel, if_pos hesc, dif_neg hnp1]
  simp

theorem stepRes_of_esc_nobr (w : List Char) (p : Nat) (hp : p < w.length)
    (hesc : w.get ⟨p, hp⟩ = '\x1b') (hp1 : p + 1 < w.length)
    (hbr : w.get ⟨p + 1, hp1⟩ ≠ '[') (s : Nat) :
    stepRes w p s false = .cont (flushEvs s p) [] p p true false := by
  have hbel : w.get ⟨p, hp⟩ ≠ '\x07' := by rw [hesc]; decide
  rw [stepRes, dif_pos hp]
  simp only
  rw [if_neg hbel, if_pos hesc, dif_pos hp1, if_neg hbr]
  simp [backtrack]

theorem stepRes_of_esc_all1 (w : List Char) (p : Nat) (hp : p < w.length)
    (hesc : w.get ⟨p, hp⟩ = '\x1b') (hp1 : p + 1 < w.length)
    (hbr : w.get ⟨p + 1, hp1⟩ = '[')
    (hall1 : (w.drop (p + 2)).all csi_parameter_byte = true) (s : Nat) :
    stepRes w p s false = .exit (flushEvs s p) (w.drop p) := by
  have hbel : w.get ⟨p, hp⟩ ≠ '\x07' := by rw [hesc]; decide
  rw [stepRes, dif_pos hp]
  simp only
  rw [if_neg hbel, if_pos hesc, dif_pos hp1, if_pos hbr, if_pos hall1]
  simp

theorem stepRes_of_esc_all2 (w : List Char) (p : Nat) (hp : p < w.length)
    (hesc : w.get ⟨p, hp⟩ = '\x1b') (hp1 : p + 1 < w.length)
    (hbr : w.get ⟨p + 1, hp1⟩ = '[')
    (hall1 : ¬ (w.drop (p + 2)).all csi_parameter_byte = true)
    (hall2 : ((w.drop (p + 2)).dropWhile csi_parameter_byte).all
      csi_intermediate_byte = true) (s : Nat) :
    stepRes w p s false = .exit (flushEvs s p) (w.drop p) := by
  have hbel : w.get ⟨p, hp⟩ ≠ '\x07' := by rw [hesc]; decide
  rw [stepRes, dif_pos hp]
  simp only
  rw [if_neg hbel, if_pos hesc, dif_pos hp1, if_pos hbr, if_neg hall1, if_pos hall2]
  simp

theorem stepRes_of_esc_fin (w : List Char) (p : Nat) (hp : p < w.length)
    (hesc : w.get ⟨p, hp⟩ = '\x1b') (hp1 : p + 1 < w.length)
    (hbr : w.get ⟨p + 1, hp1⟩ = '[') (fin : Char) (rest3 : List Char)
    (h3 : ((w.drop (p + 2)).dropWhile csi_parameter_byte).dropWhile
            csi_intermediate_byte = fin :: rest3)
    (hfin : csi_final_byte fin = true) (s : Nat) :
    stepRes w p s false = .cont
      (flushEvs s p ++
        (if fin = 'm' then
          parse_sgr_sequence ((w.drop (p + 2)).takeWhile csi_parameter_byte)
         else []).map (fun x => PEvent.style x.1 x.2))
      [(p, p + 2 + ((w.drop (p + 2)).takeWhile csi_parameter_byte).length +
          (((w.drop (p + 2)).dropWhile csi_parameter_byte).takeWhile
            csi_intermediate_byte).length + 1)]
      (p + 2 + ((w.drop (p + 2)).takeWhile csi_parameter_byte).length +
        (((w.drop (p + 2)).dropWhile csi_parameter_byte).takeWhile
          csi_intermediate_byte).length + 1)
      (p + 2 + ((w.drop (p + 2)).takeWhile csi_parameter_byte).length +
        (((w.drop (p + 2)).dropWhile csi_parameter_byte).takeWhile
          csi_intermediate_byte).length + 1)
      false true := by
  have hbel : w.get ⟨p, hp⟩ ≠ '\x07' := by rw [hesc]; decide
  have hall1 : ¬ (w.drop (p + 2)).all csi_parameter_byte = true := by
    intro hall
    have hnil : (w.drop (p + 2)).dropWhile csi_parameter_byte = [] :=
      List.dropWhile_eq_nil_iff.2 (fun x hx => List.all_eq_true.1 hall x hx)
    rw [hnil] at h3
    simp at h3
  have hall2 : ¬ ((w.drop (p + 2)).dropWhile csi_parameter_byte).all
      csi_intermediate_byte = true := by
    intro hall
    have hnil : ((w.drop (p + 2)).dropWhile csi_parameter_byte).dropWhile
        csi_intermediate_byte = [] :=
      List.dropWhile_eq_nil_iff.2 (fun x hx => List.all_eq_true.1 hall x hx)
    rw [hnil] at h3
    cases h3
  rw [stepRes, dif_pos hp]
  simp only
  rw [if_neg hbel, if_pos hesc, dif_pos hp1, if_pos hbr,
      if_neg hall1, if_neg hall2, h3]
  simp only [hfin, reduceIte]
  simp

theorem stepRes_of_esc_nofin (w : List Char) (p : Nat) (hp : p < w.length)
    (hesc : w.get ⟨p, hp⟩ = '\x1b') (hp1 : p + 1 < w.length)
    (hbr : w.get ⟨p + 1, hp1⟩ = '[') (fin : Char) (rest3 : List Char)
    (h3 : ((w.drop (p + 2)).dropWhile csi_parameter_byte).dropWhile
            csi_intermediate_byte = fin :: rest3)
    (hfin : csi_final_byte fin = false) (s : Nat) :
    stepRes w p s false = .cont (flushEvs s p) [] p p true false := by
  have hbel : w.get ⟨p, hp⟩ ≠ '\x07' := by rw [hesc]; decide
  have hall1 : ¬ (w.drop (p + 2)).all csi_parameter_byte = true := by
    intro hall
    have hnil : (w.drop (p + 2)).dropWhile csi_parameter_byte = [] :=
      List.dropWhile_eq_nil_iff.2 (fun x hx => List.all_eq_true.1 hall x hx)
    rw [hnil] at h3
    simp at h3
  have hall2 : ¬ ((w.drop (p + 2)).dropWhile csi_parameter_byte).all
      csi_intermediate_byte = true := by
    intro hall
    have hnil : ((w.drop (p + 2)).dropWhile csi_parameter_byte).dropWhile
        csi_intermediate_byte = [] :=
      List.dropWhile_eq_nil_iff.2 (fun x hx => List.all_eq_true.1 hall x hx)
    rw [hnil] at h3
    cases h3
  rw [stepRes, dif_pos hp]
  simp only
  rw [if_neg hbel, if_pos hesc, dif_pos hp1, if_pos hbr,
      if_neg hall1, if_neg hall2, h3]
  simp only [hfin, Bool.false_eq_true, reduceIte]

theorem runFrom_shift_erased (u v : List Char) (p s : Nat) (ig : Bool)
    (ws ws' : List Nat) :
    (runFrom ⟨u ++ v, u.length + p, ws⟩ (u.length + s) ig).evs.map (eraseEv (u ++ v)) =
      (runFrom ⟨v, p, ws'⟩ s ig).evs.map (eraseEv v) ∧
    (runFrom ⟨u ++ v, u.length + p, ws⟩ (u.length + s) ig).leftover =
      (runFrom ⟨v, p, ws'⟩ s ig).leftover := by
  have h := runFrom_shift (mWeight v p ig) u v p s ig ws ws' (le_refl _)
  rw [h]
  exact ⟨map_eraseEv_shift u v _, rfl⟩

/-- Pending-text simulation: a run over `u ++ v` positioned at the start
of `v` with unflushed text reaching back into `u` produces, up to
coalescing of adjacent TEXT events, the pending slice followed by what a
fresh-start run over `v` produces, and the same leftover. -/
theorem runFrom_pending :
    ∀ (m : Nat) (u v : List Char) (p s : Nat) (ig : Bool) (ws ws' : List Nat),
      mWeight v p ig ≤ m → s ≤ u.length → p < v.length →
      coalesce (txt (u ++ v) s u.length ++
          (runFrom ⟨v, p, ws'⟩ 0 ig).evs.map (eraseEv v)) =
        coalesce ((runFrom ⟨u ++ v, u.length + p, ws⟩ s ig).evs.map
          (eraseEv (u ++ v))) ∧
      (runFrom ⟨u ++ v, u.length + p, ws⟩ s ig).leftover =
        (runFrom ⟨v, p, ws'⟩ 0 ig).leftover := by
  intro m
  induction m with
  | zero =>
      intro u v p s ig ws ws' hm
      exfalso
      simp only [mWeight] at hm
      by_cases hg : ig <;> simp [hg] at hm
  | succ m ih =>
      intro u v p s ig ws ws' hm hsu hpv
      have hk : u.length + p < (u ++ v).length := by simp; omega
      have hchar : (u ++ v).get ⟨u.length + p, hk⟩ = v.get ⟨p, hpv⟩ :=
        get_append_right u v p hpv hk
      have hlenW : (u ++ v).length = u.length + v.length := by simp
      have hdropp : (u ++ v).drop (u.length + p) = v.drop p := drop_append_shift u v p
      have htxt0 : txt (u ++ v) u.length (u.length + p) = txt v 0 p := by
        have h0 : u.length + 0 = u.length := rfl
        have := txt_shift u v 0 p
        rw [h0] at this
        exact this
      by_cases hbel : v.get ⟨p, hpv⟩ = '\x07'
      · -- BEL: both sides flush and ring the bell, then continue aligned
        have hstR := stepRes_of_bel v p hpv hbel 0 ig
        have hstL := stepRes_of_bel (u ++ v) (u.length + p) hk
          (by rw [hchar]; exact hbel) s ig
        rw [runFrom_unfold ⟨u ++ v, u.length + p, ws⟩ s ig,
            runFrom_unfold ⟨v, p, ws'⟩ 0 ig]
        simp only
        rw [hstL, hstR]
        simp only [Bool.false_eq_true, if_false]
        have e1 : u.length + p + 1 = u.length + (p + 1) := rfl
        rw [e1]
        obtain ⟨hsh1, hsh2⟩ := runFrom_shift_erased u v (p + 1) (p + 1) ig ws ws'
        constructor
        · simp only [List.map_append, map_eraseEv_flushEvs, hsh1]
          have hbellmap : ([PEvent.bell] : List PEvent).map (eraseEv (u ++ v)) =
              ([PEvent.bell]).map (eraseEv v) := rfl
          try simp only [List.append_assoc]
          rw [show txt v 0 p = txt (u ++ v) u.length (u.length + p) from htxt0.symm]
          rw [coalesce_flush (u ++ v) s u.length (u.length + p) hsu (by omega)]
          rfl
        · simpa using hsh2
      · by_cases hesc : v.get ⟨p, hpv⟩ = '\x1b'
        case neg =>
          -- ordinary character
          by_cases hend : p + 1 = v.length
          · -- last character: both sides flush
            have hstR := stepRes_of_normal_end v p hpv hbel hesc hend 0 ig
            have hstL := stepRes_of_normal_end (u ++ v) (u.length + p) hk
              (by rw [hchar]; exact hbel) (by rw [hchar]; exact hesc)
              (by omega) s ig
            rw [runFrom_unfold ⟨u ++ v, u.length + p, ws⟩ s ig,
                runFrom_unfold ⟨v, p, ws'⟩ 0 ig]
            simp only
            rw [hstL, hstR]
            simp only [Bool.false_eq_true, if_false]
            have e1 : u.length + p + 1 = u.length + (p + 1) := rfl
            rw [e1]
            obtain ⟨hsh1, hsh2⟩ := runFrom_shift_erased u v (p + 1) (p + 1) ig ws ws'
            constructor
            · simp only [List.map_append, map_eraseEv_flushEvs, hsh1]
              have htxt1 : txt (u ++ v) u.length (u.length + (p + 1)) =
                  txt v 0 (p + 1) := by
                have h0 : u.length + 0 = u.length := rfl
                have := txt_shift u v 0 (p + 1)
                rw [h0] at this
                exact this
              try simp only [List.append_assoc]
              rw [show txt v 0 (p + 1) =
                txt (u ++ v) u.length (u.length + (p + 1)) from htxt1.symm]
              rw [coalesce_flush (u ++ v) s u.length (u.length + (p + 1)) hsu (by omega)]
            · simpa using hsh2
          · -- middle character: both sides step silently
            have hstR := stepRes_of_normal_mid v p hpv hbel hesc hend 0 ig
            have hstL := stepRes_of_normal_mid (u ++ v) (u.length + p) hk
              (by rw [hchar]; exact hbel) (by rw [hchar]; exact hesc)
              (by omega) s ig
            rw [runFrom_unfold ⟨u ++ v, u.length + p, ws⟩ s ig,
                runFrom_unfold ⟨v, p, ws'⟩ 0 ig]
            simp only
            rw [hstL, hstR]
            simp only [Bool.false_eq_true, if_false]
            have e1 : u.length + p + 1 = u.length + (p + 1) := rfl
            rw [e1]
            have hm' : mWeight v (p + 1) ig ≤ m := by
              simp only [mWeight] at hm ⊢
              by_cases hg : ig <;> simp [hg] at hm ⊢ <;> omega
            obtain ⟨ihc, ihl⟩ := ih u v (p + 1) s ig ws ws' hm' hsu (by omega)
            constructor
            · simpa using ihc
            · simpa using ihl
        case pos =>
          by_cases hig : ig = true
          · -- ESC with the ignore flag set: treated as an ordinary character
            subst hig
            by_cases hend : p + 1 = v.length
            · have hstR := stepRes_of_ig_end v p hpv hesc true rfl hend 0
              have hstL := stepRes_of_ig_end (u ++ v) (u.length + p) hk
                (by rw [hchar]; exact hesc) true rfl (by omega) s
              rw [runFrom_unfold ⟨u ++ v, u.length + p, ws⟩ s true,
                  runFrom_unfold ⟨v, p, ws'⟩ 0 true]
              simp only
              rw [hstL, hstR]
              simp only [Bool.false_eq_true, if_false]
              have e1 : u.length + p + 1 = u.length + (p + 1) := rfl
              rw [e1]
              obtain ⟨hsh1, hsh2⟩ :=
                runFrom_shift_erased u v (p + 1) (p + 1) false ws ws'
              constructor
              · simp only [List.map_append, map_eraseEv_flushEvs, hsh1]
                have htxt1 : txt (u ++ v) u.length (u.length + (p + 1)) =
                    txt v 0 (p + 1) := by
                  have h0 : u.length + 0 = u.length := rfl
                  have := txt_shift u v 0 (p + 1)
                  rw [h0] at this
                  exact this
                try simp only [List.append_assoc]
                rw [show txt v 0 (p + 1) =
                  txt (u ++ v) u.length (u.length + (p + 1)) from htxt1.symm]
                rw [coalesce_flush (u ++ v) s u.length (u.length + (p + 1)) hsu
                  (by omega)]
              · simpa using hsh2
            · have hstR := stepRes_of_ig_mid v p hpv hesc true rfl hend 0
              have hstL := stepRes_of_ig_mid (u ++ v) (u.length + p) hk
                (by rw [hchar]; exact hesc) true rfl (by omega) s
              rw [runFrom_unfold ⟨u ++ v, u.length + p, ws⟩ s true,
                  runFrom_unfold ⟨v, p, ws'⟩ 0 true]
              simp only
              rw [hstL, hstR]
              simp only [Bool.false_eq_true, if_false]
              have e1 : u.length + p + 1 = u.length + (p + 1) := rfl
              rw [e1]
              have hm' : mWeight v (p + 1) false ≤ m := by
                simp only [mWeight] at hm ⊢
                simp at hm ⊢
                omega
              obtain ⟨ihc, ihl⟩ := ih u v (p + 1) s false ws ws' hm' hsu (by omega)
              constructor
              · simpa using ihc
              · simpa using ihl
          · -- ESC with the ignore flag clear: the escape scanner runs
            have hig2 : ig = false := by simpa using hig
            subst hig2
            have hdrop2 : (u ++ v).drop (u.length + p + 2) = v.drop (p + 2) :=
              drop_append_shift u v (p + 2)
            by_cases hp1 : p + 1 < v.length
            case neg =>
              -- lone ESC at the end: both sides stop; same leftover
              have hstR := stepRes_of_esc_short v p hpv hesc hp1 0
              have hstL := stepRes_of_esc_short (u ++ v) (u.length + p) hk
                (by rw [hchar]; exact hesc) (by omega) s
              rw [runFrom_unfold ⟨u ++ v, u.length + p, ws⟩ s false,
                  runFrom_unfold ⟨v, p, ws'⟩ 0 false]
              simp only
              rw [hstL, hstR]
              simp only
              constructor
              · simp only [map_eraseEv_flushEvs]
                rw [show txt v 0 p = txt (u ++ v) u.length (u.length + p) from
                  htxt0.symm]
                have := coalesce_flush (u ++ v) s u.length (u.length + p) hsu
                  (by omega) []
                simpa using this
              · exact hdropp
            case pos =>
              have hk1 : u.length + p + 1 < (u ++ v).length := by omega
              have hchar1 : (u ++ v).get ⟨u.length + p + 1, hk1⟩ =
                  v.get ⟨p + 1, hp1⟩ := by
                have e1 : u.length + p + 1 = u.length + (p + 1) := rfl
                have := get_append_right u v (p + 1) hp1 (by omega)
                simpa [e1] using this
              by_cases hbr : v.get ⟨p + 1, hp1⟩ = '['
              case neg =>
                -- unrecognized escape family: both sides backtrack
                have hstR := stepRes_of_esc_nobr v p hpv hesc hp1 hbr 0
                have hstL := stepRes_of_esc_nobr (u ++ v) (u.length + p) hk
                  (by rw [hchar]; exact hesc) hk1 (by rw [hchar1]; exact hbr) s
                rw [runFrom_unfold ⟨u ++ v, u.length + p, ws⟩ s false,
                    runFrom_unfold ⟨v, p, ws'⟩ 0 false]
                simp only
                rw [hstL, hstR]
                simp only [Bool.false_eq_true, if_false]
                obtain ⟨hsh1, hsh2⟩ := runFrom_shift_erased u v p p true ws ws'
                constructor
                · simp only [List.map_append, map_eraseEv_flushEvs, hsh1]
                  try simp only [List.append_assoc]
                  rw [show txt v 0 p = txt (u ++ v) u.length (u.length + p) from
                    htxt0.symm]
                  rw [coalesce_flush (u ++ v) s u.length (u.length + p) hsu
                    (by omega)]
                · simpa using hsh2
              case pos =>
                by_cases hall1 : (v.drop (p + 2)).all csi_parameter_byte = true
                · -- scanner exhausts while reading parameter bytes
                  have hstR := stepRes_of_esc_all1 v p hpv hesc hp1 hbr hall1 0
                  have hstL := stepRes_of_esc_all1 (u ++ v) (u.length + p) hk
                    (by rw [hchar]; exact hesc) hk1 (by rw [hchar1]; exact hbr)
                    (by rw [hdrop2]; exact hall1) s
                  rw [runFrom_unfold ⟨u ++ v, u.length + p, ws⟩ s false,
                      runFrom_unfold ⟨v, p, ws'⟩ 0 false]
                  simp only
                  rw [hstL, hstR]
                  simp only
                  constructor
                  · simp only [map_eraseEv_flushEvs]
                    rw [show txt v 0 p = txt (u ++ v) u.length (u.length + p) from
                      htxt0.symm]
                    have := coalesce_flush (u ++ v) s u.length (u.length + p) hsu
                      (by omega) []
                    simpa using this
                  · exact hdropp
                · by_cases hall2 : ((v.drop (p + 2)).dropWhile
                      csi_parameter_byte).all csi_intermediate_byte = true
                  · -- scanner exhausts while reading intermediate bytes
                    have hstR := stepRes_of_esc_all2 v p hpv hesc hp1 hbr hall1
                      hall2 0
                    have hstL := stepRes_of_esc_all2 (u ++ v) (u.length + p) hk
                      (by rw [hchar]; exact hesc) hk1 (by rw [hchar1]; exact hbr)
                      (by rw [hdrop2]; exact hall1) (by rw [hdrop2]; exact hall2) s
                    rw [runFrom_unfold ⟨u ++ v, u.length + p, ws⟩ s false,
                        runFrom_unfold ⟨v, p, ws'⟩ 0 false]
                    simp only
                    rw [hstL, hstR]
                    simp only
                    constructor
                    · simp only [map_eraseEv_flushEvs]
                      rw [show txt v 0 p = txt (u ++ v) u.length (u.length + p) from
                        htxt0.symm]
                      have := coalesce_flush (u ++ v) s u.length (u.length + p) hsu
                        (by omega) []
                      simpa using this
                    · exact hdropp
                  · -- the scanner reaches a deciding byte
                    have hne3 : ((v.drop (p + 2)).dropWhile
                        csi_parameter_byte).dropWhile csi_intermediate_byte ≠ [] := by
                      intro hnil
                      exact hall2 (List.all_eq_true.2
                        (fun x hx => List.dropWhile_eq_nil_iff.1 hnil x hx))
                    obtain ⟨fin, rest3, h3⟩ := List.exists_cons_of_ne_nil hne3
                    have h3L : (((u ++ v).drop (u.length + p + 2)).dropWhile
                        csi_parameter_byte).dropWhile csi_intermediate_byte =
                        fin :: rest3 := by rw [hdrop2]; exact h3
                    by_cases hfin : csi_final_byte fin = true
                    · -- recognized CSI sequence on both sides
                      have hstR := stepRes_of_esc_fin v p hpv hesc hp1 hbr fin
                        rest3 h3 hfin 0
                      have hstL := stepRes_of_esc_fin (u ++ v) (u.length + p) hk
                        (by rw [hchar]; exact hesc) hk1 (by rw [hchar1]; exact hbr)
                        fin rest3 h3L hfin s
                      rw [hdrop2] at hstL
                      have eq1 : u.length + p + 2 +
                          ((v.drop (p + 2)).takeWhile csi_parameter_byte).length +
                          (((v.drop (p + 2)).dropWhile csi_parameter_byte).takeWhile
                            csi_intermediate_byte).length + 1 =
                          u.length + (p + 2 +
                          ((v.drop (p + 2)).takeWhile csi_parameter_byte).length +
                          (((v.drop (p + 2)).dropWhile csi_parameter_byte).takeWhile
                            csi_intermediate_byte).length + 1) := by omega
                      rw [eq1] at hstL
                      rw [runFrom_unfold ⟨u ++ v, u.length + p, ws⟩ s false,
                          runFrom_unfold ⟨v, p, ws'⟩ 0 false]
                      simp only
                      rw [hstL, hstR]
                      simp only [reduceIte]
                      obtain ⟨hsh1, hsh2⟩ := runFrom_shift_erased u v
                        (p + 2 +
                          ((v.drop (p + 2)).takeWhile csi_parameter_byte).length +
                          (((v.drop (p + 2)).dropWhile csi_parameter_byte).takeWhile
                            csi_intermediate_byte).length + 1)
                        (p + 2 +
                          ((v.drop (p + 2)).takeWhile csi_parameter_byte).length +
                          (((v.drop (p + 2)).dropWhile csi_parameter_byte).takeWhile
                            csi_intermediate_byte).length + 1)
                        false ((u.length + p) :: ws) (p :: ws')
                      constructor
                      · simp only [List.map_append, map_eraseEv_flushEvs, hsh1,
                          map_eraseEv_styles]
                        try simp only [List.append_assoc]
                        rw [show txt v 0 p =
                          txt (u ++ v) u.length (u.length + p) from htxt0.symm]
                        rw [coalesce_flush (u ++ v) s u.length (u.length + p) hsu
                          (by omega)]
                      · simpa using hsh2
                    · -- deciding byte is not a valid final byte: backtrack
                      have hfin2 : csi_final_byte fin = false := by
                        simpa using hfin
                      have hstR := stepRes_of_esc_nofin v p hpv hesc hp1 hbr fin
                        rest3 h3 hfin2 0
                      have hstL := stepRes_of_esc_nofin (u ++ v) (u.length + p) hk
                        (by rw [hchar]; exact hesc) hk1 (by rw [hchar1]; exact hbr)
                        fin rest3 h3L hfin2 s
                      rw [runFrom_unfold ⟨u ++ v, u.length + p, ws⟩ s false,
                          runFrom_unfold ⟨v, p, ws'⟩ 0 false]
                      simp only
                      rw [hstL, hstR]
                      simp only [Bool.false_eq_true, if_false]
                      obtain ⟨hsh1, hsh2⟩ := runFrom_shift_erased u v p p true ws ws'
                      constructor
                      · simp only [List.map_append, map_eraseEv_flushEvs, hsh1]
                        try simp only [List.append_assoc]
                        rw [show txt v 0 p =
                          txt (u ++ v) u.length (u.length + p) from htxt0.symm]
                        rw [coalesce_flush (u ++ v) s u.length (u.length + p) hsu
                          (by omega)]
                      · simpa using hsh2

/-- Every leftover the parse loop can produce is either empty or an
unfinished escape sequence. -/
theorem runFrom_leftover_shape :
    ∀ (m : Nat) (w : List Char) (p s : Nat) (ig : Bool) (ws : List Nat),
      mWeight w p ig ≤ m →
      (runFrom ⟨w, p, ws⟩ s ig).leftover = [] ∨
        incompleteEsc (runFrom ⟨w, p, ws⟩ s ig).leftover := by
  intro m
  induction m with
  | zero =>
      intro w p s ig ws hm
      exfalso
      simp only [mWeight] at hm
      by_cases hg : ig <;> simp [hg] at hm
  | succ m ih =>
      intro w p s ig ws hm
      rw [runFrom_unfold]
      simp only
      by_cases hp : p < w.length
      case neg =>
        rw [stepRes, dif_neg hp]
        simp
      case pos =>
      have hd1 : w.drop p = w.get ⟨p, hp⟩ :: w.drop (p + 1) :=
        List.drop_eq_getElem_cons hp
      by_cases hbel : w.get ⟨p, hp⟩ = '\x07'
      · rw [stepRes_of_bel w p hp hbel s ig]
        simp only [Bool.false_eq_true, if_false]
        obtain ⟨_, _, hlt⟩ := stepRes_cont_bound _ _ _ _ _ _ _ _ _ _
          (stepRes_of_bel w p hp hbel s ig)
        exact ih w (p + 1) (p + 1) ig ws (by omega)
      · by_cases hesc : w.get ⟨p, hp⟩ = '\x1b'
        case neg =>
          by_cases hend : p + 1 = w.length
          · rw [stepRes_of_normal_end w p hp hbel hesc hend s ig]
            simp only [Bool.false_eq_true, if_false]
            obtain ⟨_, _, hlt⟩ := stepRes_cont_bound _ _ _ _ _ _ _ _ _ _
              (stepRes_of_normal_end w p hp hbel hesc hend s ig)
            exact ih w (p + 1) (p + 1) ig ws (by omega)
          · rw [stepRes_of_normal_mid w p hp hbel hesc hend s ig]
            simp only [Bool.false_eq_true, if_false]
            obtain ⟨_, _, hlt⟩ := stepRes_cont_bound _ _ _ _ _ _ _ _ _ _
              (stepRes_of_normal_mid w p hp hbel hesc hend s ig)
            exact ih w (p + 1) s ig ws (by omega)
        case pos =>
          by_cases hig : ig = true
          · subst hig
            by_cases hend : p + 1 = w.length
            · rw [stepRes_of_ig_end w p hp hesc true rfl hend s]
              simp only [Bool.false_eq_true, if_false]
              obtain ⟨_, _, hlt⟩ := stepRes_cont_bound _ _ _ _ _ _ _ _ _ _
                (stepRes_of_ig_end w p hp hesc true rfl hend s)
              exact ih w (p + 1) (p + 1) false ws (by omega)
            · rw [stepRes_of_ig_mid w p hp hesc true rfl hend s]
              simp only [Bool.false_eq_true, if_false]
              obtain ⟨_, _, hlt⟩ := stepRes_cont_bound _ _ _ _ _ _ _ _ _ _
                (stepRes_of_ig_mid w p hp hesc true rfl hend s)
              exact ih w (p + 1) s false ws (by omega)
          · have hig2 : ig = false := by simpa using hig
            subst hig2
            by_cases hp1 : p + 1 < w.length
            case neg =>
              rw [stepRes_of_esc_short w p hp hesc hp1 s]
              simp only
              right
              rw [hd1, hesc, drop_len_le w (p + 1) (by omega)]
              exact Or.inl rfl
            case pos =>
              have hd2 : w.drop (p + 1) = w.get ⟨p + 1, hp1⟩ :: w.drop (p + 2) :=
                List.drop_eq_getElem_cons hp1
              by_cases hbr : w.get ⟨p + 1, hp1⟩ = '['
              case neg =>
                rw [stepRes_of_esc_nobr w p hp hesc hp1 hbr s]
                simp only [Bool.false_eq_true, if_false]
                obtain ⟨_, _, hlt⟩ := stepRes_cont_bound _ _ _ _ _ _ _ _ _ _
                  (stepRes_of_esc_nobr w p hp hesc hp1 hbr s)
                exact ih w p p true ws (by omega)
              case pos =>
                by_cases hall1 : (w.drop (p + 2)).all csi_parameter_byte = true
                · rw [stepRes_of_esc_all1 w p hp hesc hp1 hbr hall1 s]
                  simp only
                  right
                  rw [hd1, hesc, hd2, hbr]
                  refine Or.inr ⟨w.drop (p + 2), [], by rw [List.append_nil], hall1, rfl⟩
                · by_cases hall2 : ((w.drop (p + 2)).dropWhile
                      csi_parameter_byte).all csi_intermediate_byte = true
                  · rw [stepRes_of_esc_all2 w p hp hesc hp1 hbr hall1 hall2 s]
                    simp only
                    right
                    rw [hd1, hesc, hd2, hbr]
                    refine Or.inr ⟨(w.drop (p + 2)).takeWhile csi_parameter_byte,
                      (w.drop (p + 2)).dropWhile csi_parameter_byte,
                      by rw [List.takeWhile_append_dropWhile], ?_, hall2⟩
                    exact List.all_eq_true.2
                      (fun x hx => List.mem_takeWhile_imp hx)
                  · have hne3 : ((w.drop (p + 2)).dropWhile
                        csi_parameter_byte).dropWhile csi_intermediate_byte ≠ [] := by
                      intro hnil
                      exact hall2 (List.all_eq_true.2
                        (fun x hx => List.dropWhile_eq_nil_iff.1 hnil x hx))
                    obtain ⟨fin, rest3, h3⟩ := List.exists_cons_of_ne_nil hne3
                    by_cases hfin : csi_final_byte fin = true
                    · rw [stepRes_of_esc_fin w p hp hesc hp1 hbr fin rest3 h3 hfin s]
                      simp only [reduceIte]
                      obtain ⟨_, _, hlt⟩ := stepRes_cont_bound _ _ _ _ _ _ _ _ _ _
                        (stepRes_of_esc_fin w p hp hesc hp1 hbr fin rest3 h3 hfin s)
                      exact ih w _ _ false (p :: ws) (by omega)
                    · have hfin2 : csi_final_byte fin = false := by simpa using hfin
                      rw [stepRes_of_esc_nofin w p hp hesc hp1 hbr fin rest3 h3 hfin2 s]
                      simp only [Bool.false_eq_true, if_false]
                      obtain ⟨_, _, hlt⟩ := stepRes_cont_bound _ _ _ _ _ _ _ _ _ _
                        (stepRes_of_esc_nofin w p hp hesc hp1 hbr fin rest3 h3 hfin2 s)
                      exact ih w p p true ws (by omega)

/-- Resuming on a leftover with no new input reproduces the leftover and
yields nothing. -/
theorem run_resume_nil (l : List Char) (h : l = [] ∨ incompleteEsc l) :
    (runFrom ⟨l, 0, []⟩ 0 false).evs = [] ∧
    (runFrom ⟨l, 0, []⟩ 0 false).leftover = l := by
  rcases h with rfl | h
  · exact ⟨rfl, rfl⟩
  · rw [incompleteEsc_run l [] h]
    exact ⟨rfl, rfl⟩

/-- Feeding `b` after `w` in one call behaves, up to coalescing of
adjacent TEXT events, like running `w` alone and then resuming on
`leftover ++ b`; the final leftovers agree. -/
theorem runFrom_append :
    ∀ (m : Nat) (w b : List Char) (p s : Nat) (ig : Bool) (ws ws' : List Nat),
      mWeight w p ig ≤ m → s ≤ p → p ≤ w.length → b ≠ [] →
      (p < w.length ∨ (s = p ∧ ig = false)) →
      (ig = true → ∃ h : p < w.length, w.get ⟨p, h⟩ = '\x1b') →
      coalesce ((runFrom ⟨w, p, ws⟩ s ig).evs.map (eraseEv w) ++
          (runFrom ⟨(runFrom ⟨w, p, ws⟩ s ig).leftover ++ b, 0, []⟩ 0 false).evs.map
            (eraseEv ((runFrom ⟨w, p, ws⟩ s ig).leftover ++ b))) =
        coalesce ((runFrom ⟨w ++ b, p, ws'⟩ s ig).evs.map (eraseEv (w ++ b))) ∧
      (runFrom ⟨(runFrom ⟨w, p, ws⟩ s ig).leftover ++ b, 0, []⟩ 0 false).leftover =
        (runFrom ⟨w ++ b, p, ws'⟩ s ig).leftover := by
  intro m
  induction m with
  | zero =>
      intro w b p s ig ws ws' hm
      exfalso
      simp only [mWeight] at hm
      by_cases hg : ig <;> simp [hg] at hm
  | succ m ih =>
      intro w b p s ig ws ws' hm hsp hple hbne hX hinv
      have hblen : 0 < b.length := List.length_pos.2 hbne
      have hlenWB : (w ++ b).length = w.length + b.length := by simp
      by_cases hp : p < w.length
      case neg =>
        -- the first call is already exhausted at p = |w|
        rcases hX with hlt | ⟨hsep, hige⟩
        · omega
        subst hsep
        subst hige
        have hpe : s = w.length := by omega
        subst hpe
        rw [runFrom_unfold ⟨w, w.length, ws⟩ w.length false]
        simp only
        rw [stepRes, dif_neg hp]
        simp only [List.nil_append, List.map_nil]
        have hsh := runFrom_shift_erased w b 0 0 false ws' []
        simp only [Nat.add_zero] at hsh
        exact ⟨by rw [hsh.1], hsh.2.symm⟩
      case pos =>
      have hpwb : p < (w ++ b).length := by omega
      have hchar : (w ++ b).get ⟨p, hpwb⟩ = w.get ⟨p, hp⟩ :=
        get_append_left w b p hp hpwb
      by_cases hbel : w.get ⟨p, hp⟩ = '\x07'
      · -- BEL on both sides
        have higf : ig = false := by
          cases hg : ig with
          | false => rfl
          | true =>
              obtain ⟨hplt, he⟩ := hinv hg
              exact absurd (show w.get ⟨p, hp⟩ = '\x1b' from he)
                (by rw [hbel]; decide)
        subst higf
        have hstA := stepRes_of_bel w p hp hbel s false
        have hstB := stepRes_of_bel (w ++ b) p hpwb (by rw [hchar]; exact hbel) s false
        rw [runFrom_unfold ⟨w, p, ws⟩ s false,
            runFrom_unfold ⟨w ++ b, p, ws'⟩ s false]
        simp only
        rw [hstA, hstB]
        simp only [Bool.false_eq_true, if_false]
        obtain ⟨_, _, hlt⟩ := stepRes_cont_bound _ _ _ _ _ _ _ _ _ _ hstA
        obtain ⟨ih1, ih2⟩ := ih w b (p + 1) (p + 1) false ws ws' (by omega)
          (le_refl _) (by omega) hbne
          (by rcases Nat.lt_or_ge (p + 1) w.length with h | h
              · exact Or.inl h
              · exact Or.inr ⟨rfl, rfl⟩)
          (fun h => absurd h Bool.false_ne_true)
        refine ⟨?_, by simpa using ih2⟩
        simp only [List.map_append, map_eraseEv_flushEvs]
        rw [txt_append_left w b s p (by omega)]
        try simp only [List.append_assoc]
        exact coalesce_append_congr _ _ _ (coalesce_append_congr _ _ _ (by simpa using ih1))
      · by_cases hesc : w.get ⟨p, hp⟩ = '\x1b'
        case neg =>
          have higf : ig = false := by
            cases hg : ig with
            | false => rfl
            | true =>
                obtain ⟨hplt, he⟩ := hinv hg
                exact absurd (show w.get ⟨p, hp⟩ = '\x1b' from he) hesc
          subst higf
          by_cases hend : p + 1 = w.length
          · -- last character of w: left run flushes and stops, right run
            -- keeps the pending text open into b
            have hstA := stepRes_of_normal_end w p hp hbel hesc hend s false
            have hstB := stepRes_of_normal_mid (w ++ b) p hpwb
              (by rw [hchar]; exact hbel) (by rw [hchar]; exact hesc)
              (by omega) s false
            rw [runFrom_unfold ⟨w, p, ws⟩ s false,
                runFrom_unfold ⟨w ++ b, p, ws'⟩ s false]
            simp only
            rw [hstA, hstB]
            simp only [Bool.false_eq_true, if_false]
            rw [runFrom_unfold ⟨w, p + 1, ws⟩ (p + 1) false]
            simp only
            rw [stepRes, dif_neg (by omega : ¬ p + 1 < w.length)]
            simp only [List.nil_append, List.map_nil, List.append_nil]
            have hpend := runFrom_pending (mWeight b 0 false) w b 0 s false ws' []
              (le_refl _) (by omega) hblen
            simp only [Nat.add_zero] at hpend
            rw [← hend] at hpend
            obtain ⟨hpc, hpl⟩ := hpend
            constructor
            · rw [map_eraseEv_flushEvs, ← txt_append_left w b s (p + 1) (by omega)]
              exact hpc
            · exact hpl.symm
          · -- middle of w: identical silent step on both sides
            have hstA := stepRes_of_normal_mid w p hp hbel hesc hend s false
            have hstB := stepRes_of_normal_mid (w ++ b) p hpwb
              (by rw [hchar]; exact hbel) (by rw [hchar]; exact hesc)
              (by omega) s false
            rw [runFrom_unfold ⟨w, p, ws⟩ s false,
                runFrom_unfold ⟨w ++ b, p, ws'⟩ s false]
            simp only
            rw [hstA, hstB]
            simp only [Bool.false_eq_true, if_false]
            obtain ⟨_, _, hlt⟩ := stepRes_cont_bound _ _ _ _ _ _ _ _ _ _ hstA
            obtain ⟨ih1, ih2⟩ := ih w b (p + 1) s false ws ws' (by omega)
              (by omega) (by omega) hbne (Or.inl (by omega))
              (fun h => absurd h Bool.false_ne_true)
            exact ⟨by simpa using ih1, by simpa using ih2⟩
        case pos =>
          by_cases hig : ig = true
          · -- ESC with the ignore flag set
            subst hig
            by_cases hend : p + 1 = w.length
            · have hstA := stepRes_of_ig_end w p hp hesc true rfl hend s
              have hstB := stepRes_of_ig_mid (w ++ b) p hpwb
                (by rw [hchar]; exact hesc) true rfl (by omega) s
              rw [runFrom_unfold ⟨w, p, ws⟩ s true,
                  runFrom_unfold ⟨w ++ b, p, ws'⟩ s true]
              simp only
              rw [hstA, hstB]
              simp only [Bool.false_eq_true, if_false]
              rw [runFrom_unfold ⟨w, p + 1, ws⟩ (p + 1) false]
              simp only
              rw [stepRes, dif_neg (by omega : ¬ p + 1 < w.length)]
              simp only [List.nil_append, List.map_nil, List.append_nil]
              have hpend := runFrom_pending (mWeight b 0 false) w b 0 s false ws' []
                (le_refl _) (by omega) hblen
              simp only [Nat.add_zero] at hpend
              rw [← hend] at hpend
              obtain ⟨hpc, hpl⟩ := hpend
              constructor
              · rw [map_eraseEv_flushEvs, ← txt_append_left w b s (p + 1) (by omega)]
                exact hpc
              · exact hpl.symm
            · have hstA := stepRes_of_ig_mid w p hp hesc true rfl hend s
              have hstB := stepRes_of_ig_mid (w ++ b) p hpwb
                (by rw [hchar]; exact hesc) true rfl (by omega) s
              rw [runFrom_unfold ⟨w, p, ws⟩ s true,
                  runFrom_unfold ⟨w ++ b, p, ws'⟩ s true]
              simp only
              rw [hstA, hstB]
              simp only [Bool.false_eq_true, if_false]
              obtain ⟨_, _, hlt⟩ := stepRes_cont_bound _ _ _ _ _ _ _ _ _ _ hstA
              obtain ⟨ih1, ih2⟩ := ih w b (p + 1) s false ws ws' (by omega)
                (by omega) (by omega) hbne (Or.inl (by omega))
                (fun h => absurd h Bool.false_ne_true)
              exact ⟨by simpa using ih1, by simpa using ih2⟩
          · -- ESC with the ignore flag clear: run the escape scanner
            have hig2 : ig = false := by simpa using hig
            subst hig2
            have htk : (w.take p).length = p := by
              rw [List.length_take]
              omega
            have huv : w.take p ++ (w.drop p ++ b) = w ++ b := by
              rw [← List.append_assoc, List.take_append_drop]
            have hpend0 :
                (runFrom ⟨w ++ b, p, ws'⟩ s false).leftover =
                  (runFrom ⟨w.drop p ++ b, 0, []⟩ 0 false).leftover ∧
                coalesce (txt (w ++ b) s p ++
                    (runFrom ⟨w.drop p ++ b, 0, []⟩ 0 false).evs.map
                      (eraseEv (w.drop p ++ b))) =
                  coalesce ((runFrom ⟨w ++ b, p, ws'⟩ s false).evs.map
                    (eraseEv (w ++ b))) := by
              have hpend := runFrom_pending (mWeight (w.drop p ++ b) 0 false)
                (w.take p) (w.drop p ++ b) 0 s false ws' []
                (le_refl _) (by omega) (by simp; omega)
              simp only [Nat.add_zero, htk] at hpend
              rw [huv] at hpend
              exact ⟨hpend.2, hpend.1⟩
            by_cases hp1 : p + 1 < w.length
            case neg =>
              -- lone ESC at the end of w
              have hstA := stepRes_of_esc_short w p hp hesc hp1 s
              rw [runFrom_unfold ⟨w, p, ws⟩ s false]
              simp only
              rw [hstA]
              simp only
              obtain ⟨hpl, hpc⟩ := hpend0
              constructor
              · rw [map_eraseEv_flushEvs, ← txt_append_left w b s p (by omega)]
                exact hpc
              · exact hpl.symm
            case pos =>
              have hp1wb : p + 1 < (w ++ b).length := by omega
              have hchar1 : (w ++ b).get ⟨p + 1, hp1wb⟩ = w.get ⟨p + 1, hp1⟩ :=
                get_append_left w b (p + 1) hp1 hp1wb
              have hdropB : (w ++ b).drop (p + 2) = w.drop (p + 2) ++ b :=
                List.drop_append_of_le_length (by omega)
              by_cases hbr : w.get ⟨p + 1, hp1⟩ = '['
              case neg =>
                -- invalid escape family: both sides backtrack
                have hstA := stepRes_of_esc_nobr w p hp hesc hp1 hbr s
                have hstB := stepRes_of_esc_nobr (w ++ b) p hpwb
                  (by rw [hchar]; exact hesc) hp1wb (by rw [hchar1]; exact hbr) s
                rw [runFrom_unfold ⟨w, p, ws⟩ s false,
                    runFrom_unfold ⟨w ++ b, p, ws'⟩ s false]
                simp only
                rw [hstA, hstB]
                simp only [Bool.false_eq_true, if_false]
                obtain ⟨_, _, hlt⟩ := stepRes_cont_bound _ _ _ _ _ _ _ _ _ _ hstA
                obtain ⟨ih1, ih2⟩ := ih w b p p true ws ws' (by omega)
                  (le_refl _) (by omega) hbne (Or.inl hp)
                  (fun _ => ⟨hp, hesc⟩)
                refine ⟨?_, by simpa using ih2⟩
                simp only [List.map_append, map_eraseEv_flushEvs]
                rw [txt_append_left w b s p (by omega)]
                try simp only [List.append_assoc]
                exact coalesce_append_congr _ _ _ (by simpa using ih1)
              case pos =>
                by_cases hall1 : (w.drop (p + 2)).all csi_parameter_byte = true
                · -- scanner exhausts in parameter bytes: first call stops
                  have hstA := stepRes_of_esc_all1 w p hp hesc hp1 hbr hall1 s
                  rw [runFrom_unfold ⟨w, p, ws⟩ s false]
                  simp only
                  rw [hstA]
                  simp only
                  obtain ⟨hpl, hpc⟩ := hpend0
                  constructor
                  · rw [map_eraseEv_flushEvs, ← txt_append_left w b s p (by omega)]
                    exact hpc
                  · exact hpl.symm
                · have hdw1 : (w.drop (p + 2)).dropWhile csi_parameter_byte ≠ [] := by
                    intro hnil
                    exact hall1 (List.all_eq_true.2
                      (fun x hx => List.dropWhile_eq_nil_iff.1 hnil x hx))
                  obtain ⟨htw1, hdw1e⟩ := dropWhile_ne_nil_append
                    csi_parameter_byte (w.drop (p + 2)) b hdw1
                  by_cases hall2 : ((w.drop (p + 2)).dropWhile
                      csi_parameter_byte).all csi_intermediate_byte = true
                  · -- scanner exhausts in intermediate bytes: first call stops
                    have hstA := stepRes_of_esc_all2 w p hp hesc hp1 hbr hall1
                      hall2 s
                    rw [runFrom_unfold ⟨w, p, ws⟩ s false]
                    simp only
                    rw [hstA]
                    simp only
                    obtain ⟨hpl, hpc⟩ := hpend0
                    constructor
                    · rw [map_eraseEv_flushEvs, ← txt_append_left w b s p (by omega)]
                      exact hpc
                    · exact hpl.symm
                  · have hdw2 : ((w.drop (p + 2)).dropWhile
                        csi_parameter_byte).dropWhile csi_intermediate_byte ≠ [] := by
                      intro hnil
                      exact hall2 (List.all_eq_true.2
                        (fun x hx => List.dropWhile_eq_nil_iff.1 hnil x hx))
                    obtain ⟨htw2, hdw2e⟩ := dropWhile_ne_nil_append
                      csi_intermediate_byte
                      ((w.drop (p + 2)).dropWhile csi_parameter_byte) b hdw2
                    obtain ⟨fin, rest3, h3⟩ := List.exists_cons_of_ne_nil hdw2
                    have h3B : (((w ++ b).drop (p + 2)).dropWhile
                        csi_parameter_byte).dropWhile csi_intermediate_byte =
                        fin :: (rest3 ++ b) := by
                      rw [hdropB, hdw1e, hdw2e, h3]
                      rfl
                    by_cases hfin : csi_final_byte fin = true
                    · -- recognized CSI sequence on both sides
                      have hstA := stepRes_of_esc_fin w p hp hesc hp1 hbr fin
                        rest3 h3 hfin s
                      have hstB := stepRes_of_esc_fin (w ++ b) p hpwb
                        (by rw [hchar]; exact hesc) hp1wb
                        (by rw [hchar1]; exact hbr) fin (rest3 ++ b) h3B hfin s
                      rw [hdropB, htw1, hdw1e, htw2] at hstB
                      rw [runFrom_unfold ⟨w, p, ws⟩ s false,
                          runFrom_unfold ⟨w ++ b, p, ws'⟩ s false]
                      simp only
                      rw [hstA, hstB]
                      simp only [reduceIte]
                      obtain ⟨_, hqle, hlt⟩ := stepRes_cont_bound _ _ _ _ _ _ _ _ _ _ hstA
                      obtain ⟨ih1, ih2⟩ := ih w b
                        (p + 2 + ((w.drop (p + 2)).takeWhile csi_parameter_byte).length +
                          (((w.drop (p + 2)).dropWhile csi_parameter_byte).takeWhile
                            csi_intermediate_byte).length + 1)
                        (p + 2 + ((w.drop (p + 2)).takeWhile csi_parameter_byte).length +
                          (((w.drop (p + 2)).dropWhile csi_parameter_byte).takeWhile
                            csi_intermediate_byte).length + 1)
                        false (p :: ws) (p :: ws') (by omega)
                        (le_refl _) hqle hbne (Or.inr ⟨rfl, rfl⟩)
                        (fun h => absurd h Bool.false_ne_true)
                      refine ⟨?_, by simpa using ih2⟩
                      simp only [List.map_append, map_eraseEv_flushEvs,
                        map_eraseEv_styles]
                      rw [txt_append_left w b s p (by omega)]
                      try simp only [List.append_assoc]
                      exact coalesce_append_congr _ _ _
                        (coalesce_append_congr _ _ _ (by simpa using ih1))
                    · -- deciding byte not final: both sides backtrack
                      have hfin2 : csi_final_byte fin = false := by simpa using hfin
                      have hstA := stepRes_of_esc_nofin w p hp hesc hp1 hbr fin
                        rest3 h3 hfin2 s
                      have hstB := stepRes_of_esc_nofin (w ++ b) p hpwb
                        (by rw [hchar]; exact hesc) hp1wb
                        (by rw [hchar1]; exact hbr) fin (rest3 ++ b) h3B hfin2 s
                      rw [runFrom_unfold ⟨w, p, ws⟩ s false,
                          runFrom_unfold ⟨w ++ b, p, ws'⟩ s false]
                      simp only
                      rw [hstA, hstB]
                      simp only [Bool.false_eq_true, if_false]
                      obtain ⟨_, _, hlt⟩ := stepRes_cont_bound _ _ _ _ _ _ _ _ _ _ hstA
                      obtain ⟨ih1, ih2⟩ := ih w b p p true ws ws' (by omega)
                        (le_refl _) (by omega) hbne (Or.inl hp)
                        (fun _ => ⟨hp, hesc⟩)
                      refine ⟨?_, by simpa using ih2⟩
                      simp only [List.map_append, map_eraseEv_flushEvs]
                      rw [txt_append_left w b s p (by omega)]
                      try simp only [List.append_assoc]
                      exact coalesce_append_congr _ _ _ (by simpa using ih1)

/-- One Parser.parse call on `c ++ d` behaves, up to coalescing of
adjacent TEXT events, like a call on `c` followed by a call on `d`; the
final leftovers agree. -/
theorem parse_append (l c d : List Char) :
    coalesce ((Parser.parse l c).1 ++ (Parser.parse (Parser.parse l c).2 d).1) =
      coalesce ((Parser.parse l (c ++ d)).1) ∧
    (Parser.parse (Parser.parse l c).2 d).2 = (Parser.parse l (c ++ d)).2 := by
  have hassoc : l ++ (c ++ d) = (l ++ c) ++ d := (List.append_assoc l c d).symm
  unfold Parser.parse
  simp only
  rw [hassoc]
  simp only [← runFrom_is_parseRaw]
  by_cases hd : d = []
  · subst hd
    simp only [List.append_nil]
    have hshape := runFrom_leftover_shape (mWeight (l ++ c) 0 false)
      (l ++ c) 0 0 false [] (le_refl _)
    obtain ⟨he, hl⟩ := run_resume_nil _ hshape
    constructor
    · rw [he]
      simp
    · rw [hl]
  · exact runFrom_append (mWeight (l ++ c) 0 false) (l ++ c) d 0 0 false [] []
      (le_refl _) (le_refl _) (Nat.zero_le _) hd (Or.inr ⟨rfl, rfl⟩)
      (fun hh => absurd hh Bool.false_ne_true)

/-- Chunked parsing agrees with one-shot parsing up to coalescing of
adjacent TEXT events, provided the initial leftover is a reachable parser
state (empty or an unfinished escape sequence); final leftovers agree. -/
theorem runChunks_coalesce :
    ∀ (cs : List (List Char)) (l : List Char),
      (l = [] ∨ incompleteEsc l) →
      coalesce (runChunks l cs).1 = coalesce ((Parser.parse l cs.flatten)).1 ∧
      (runChunks l cs).2 = (Parser.parse l cs.flatten).2 := by
  intro cs
  induction cs with
  | nil =>
      intro l hl
      obtain ⟨he, hlo⟩ := run_resume_nil l hl
      unfold runChunks Parser.parse
      simp only [List.flatten_nil, List.append_nil, ← runFrom_is_parseRaw]
      rw [he, hlo]
      exact ⟨rfl, rfl⟩
  | cons c cs ihc =>
      intro l hl
      have hl1 : (Parser.parse l c).2 = [] ∨ incompleteEsc (Parser.parse l c).2 := by
        unfold Parser.parse
        simp only [← runFrom_is_parseRaw]
        exact runFrom_leftover_shape (mWeight (l ++ c) 0 false)
          (l ++ c) 0 0 false [] (le_refl _)
      obtain ⟨ih1, ih2⟩ := ihc (Parser.parse l c).2 hl1
      have hpa := parse_append l c cs.flatten
      constructor
      · show coalesce ((Parser.parse l c).1 ++ (runChunks (Parser.parse l c).2 cs).1) =
          coalesce ((Parser.parse l (c :: cs).flatten).1)
        calc coalesce ((Parser.parse l c).1 ++ (runChunks (Parser.parse l c).2 cs).1)
            = coalesce ((Parser.parse l c).1 ++
                (Parser.parse (Parser.parse l c).2 cs.flatten).1) := by
              rcases hcoal : coalesce ((runChunks (Parser.parse l c).2 cs).1) with _ | _
              all_goals exact coalesce_append_congr _ _ _ ih1
          _ = coalesce ((Parser.parse l (c ++ cs.flatten)).1) := hpa.1
          _ = coalesce ((Parser.parse l (c :: cs).flatten).1) := by
              rw [List.flatten_cons]
      · show (runChunks (Parser.parse l c).2 cs).2 = (Parser.parse l (c :: cs).flatten).2
        rw [List.flatten_cons, ih2]
        exact hpa.2

/-- C2 counterexample: chunked parsing does not literally reproduce the
event sequence of a one-shot parse — parse('a') then parse('b') yields
two TEXT events Text("a"), Text("b"), while parse("ab") yields the single
event Text("ab"). -/
theorem C2_counterexample :
    (runChunks [] [['a'], ['b']]).1 ≠ (Parser.parse [] ['a', 'b']).1 := by
  decide

/-- C2 (amended): for every string and every way of splitting it into a
finite sequence of chunks, calling Parser.parse once per chunk on a fresh
parser yields the same event sequence as a single call on the whole
string up to coalescing runs of adjacent TEXT events (the chunked run may
split one TEXT payload into several consecutive TEXT events at chunk
boundaries, and nothing else differs); the final leftovers agree. -/
theorem C2_chunked_parse :
    ∀ cs : List (List Char),
      coalesce (runChunks [] cs).1 = coalesce ((Parser.parse [] cs.flatten)).1 ∧
      (runChunks [] cs).2 = (Parser.parse [] cs.flatten).2 :=
  fun cs => runChunks_coalesce cs [] (Or.inl rfl)
